import Mathlib

/-!
Verification development for the hydra_viewer configuration composition and
snapshot engine (`src/hydra_viewer/core/{parser,merger,snapshot}.py`).

The YAML/OmegaConf data model is shallowly embedded: a YAML value is `Val`,
a `DictConfig` body is `List (String × Val)` (insertion-ordered, keys unique
in every value actually produced by the YAML loader), and the file system is
an association list from path strings to file contents.  The OmegaConf deep
merge (later value wins; mappings merge recursively; any type mismatch is
resolved in favour of the later value) is `mergeVal`/`mergeList`.
-/

/-- A YAML value as handled by the viewer: strings, non-string scalars
(represented by integers), mappings with string keys, and sequences. -/
inductive Val where
  | vstr : String → Val
  | vint : Int → Val
  | vmap : List (String × Val) → Val
  | vlist : List Val → Val
deriving Repr

mutual

def decEqVal : (a b : Val) → Decidable (a = b)
  | .vstr a, .vstr b =>
      if h : a = b then .isTrue (by rw [h]) else .isFalse (fun hh => by cases hh; exact h rfl)
  | .vstr _, .vint _ => .isFalse (fun hh => by cases hh)
  | .vstr _, .vmap _ => .isFalse (fun hh => by cases hh)
  | .vstr _, .vlist _ => .isFalse (fun hh => by cases hh)
  | .vint _, .vstr _ => .isFalse (fun hh => by cases hh)
  | .vint a, .vint b =>
      if h : a = b then .isTrue (by rw [h]) else .isFalse (fun hh => by cases hh; exact h rfl)
  | .vint _, .vmap _ => .isFalse (fun hh => by cases hh)
  | .vint _, .vlist _ => .isFalse (fun hh => by cases hh)
  | .vmap _, .vstr _ => .isFalse (fun hh => by cases hh)
  | .vmap _, .vint _ => .isFalse (fun hh => by cases hh)
  | .vmap a, .vmap b =>
      match decEqEntries a b with
      | .isTrue h => .isTrue (by rw [h])
      | .isFalse h => .isFalse (fun hh => by cases hh; exact h rfl)
  | .vmap _, .vlist _ => .isFalse (fun hh => by cases hh)
  | .vlist _, .vstr _ => .isFalse (fun hh => by cases hh)
  | .vlist _, .vint _ => .isFalse (fun hh => by cases hh)
  | .vlist _, .vmap _ => .isFalse (fun hh => by cases hh)
  | .vlist a, .vlist b =>
      match decEqValList a b with
      | .isTrue h => .isTrue (by rw [h])
      | .isFalse h => .isFalse (fun hh => by cases hh; exact h rfl)

def decEqEntries : (a b : List (String × Val)) → Decidable (a = b)
  | [], [] => .isTrue rfl
  | [], _ :: _ => .isFalse (fun hh => by cases hh)
  | _ :: _, [] => .isFalse (fun hh => by cases hh)
  | (k1, v1) :: r1, (k2, v2) :: r2 =>
      if hk : k1 = k2 then
        match decEqVal v1 v2 with
        | .isTrue hv =>
          match decEqEntries r1 r2 with
          | .isTrue hr => .isTrue (by rw [hk, hv, hr])
          | .isFalse hr => .isFalse (fun hh => by cases hh; exact hr rfl)
        | .isFalse hv => .isFalse (fun hh => by cases hh; exact hv rfl)
      else .isFalse (fun hh => by cases hh; exact hk rfl)

def decEqValList : (a b : List Val) → Decidable (a = b)
  | [], [] => .isTrue rfl
  | [], _ :: _ => .isFalse (fun hh => by cases hh)
  | _ :: _, [] => .isFalse (fun hh => by cases hh)
  | v1 :: r1, v2 :: r2 =>
      match decEqVal v1 v2 with
      | .isTrue hv =>
        match decEqValList r1 r2 with
        | .isTrue hr => .isTrue (by rw [hv, hr])
        | .isFalse hr => .isFalse (fun hh => by cases hh; exact hr rfl)
      | .isFalse hv => .isFalse (fun hh => by cases hh; exact hv rfl)

end

instance : DecidableEq Val := decEqVal

instance {ε α : Type} [DecidableEq ε] [DecidableEq α] : DecidableEq (Except ε α) := fun a b =>
  match a, b with
  | .ok x, .ok y =>
      if h : x = y then .isTrue (by rw [h]) else .isFalse (fun hh => by cases hh; exact h rfl)
  | .ok _, .error _ => .isFalse (fun hh => by cases hh)
  | .error _, .ok _ => .isFalse (fun hh => by cases hh)
  | .error x, .error y =>
      if h : x = y then .isTrue (by rw [h]) else .isFalse (fun hh => by cases hh; exact h rfl)

/-- First-occurrence lookup in a mapping body (Python dicts have unique keys,
so first occurrence is the occurrence). -/
def lookupFirst : List (String × Val) → String → Option Val
  | [], _ => none
  | (k2, w) :: rest, k => if k2 = k then some w else lookupFirst rest k

/-- Replace the value at the first occurrence of a key. -/
def replaceFirst : List (String × Val) → String → Val → List (String × Val)
  | [], _, _ => []
  | (k2, w) :: rest, k, nv =>
      if k2 = k then (k2, nv) :: rest else (k2, w) :: replaceFirst rest k nv

mutual

/-- OmegaConf deep merge of two values (`OmegaConf.merge`, `merge_with`):
mappings merge key-wise, anything else is overwritten by the second value. -/
def mergeVal : Val → Val → Val
  | .vmap am, .vmap bm => .vmap (mergeList am bm)
  | _, b => b

/-- Merge the entries of the second mapping into the first, in order:
an existing key's value is deep-merged, a new key is appended (this is
exactly Python-dict update order as OmegaConf preserves insertion order). -/
def mergeList (a : List (String × Val)) : List (String × Val) → List (String × Val)
  | [] => a
  | (k, v) :: rest =>
      let a2 := match lookupFirst a k with
        | some w => replaceFirst a k (mergeVal w v)
        | none => a ++ [(k, v)]
      mergeList a2 rest

end

/-- One step of `mergeList`: absorb a single key/value pair. -/
def mergeStep (a : List (String × Val)) (k : String) (v : Val) : List (String × Val) :=
  match lookupFirst a k with
  | some w => replaceFirst a k (mergeVal w v)
  | none => a ++ [(k, v)]

theorem mergeList_nil (a : List (String × Val)) : mergeList a [] = a := by
  simp [mergeList]

theorem mergeList_cons (a : List (String × Val)) (k : String) (v : Val)
    (rest : List (String × Val)) :
    mergeList a ((k, v) :: rest) = mergeList (mergeStep a k v) rest := by
  simp [mergeList, mergeStep]

mutual

/-- Well-formedness of a value as produced by the YAML loader: every mapping
in it has pairwise-distinct keys. -/
def wfVal : Val → Bool
  | .vmap m => nodupKeysB m && wfEntries m
  | _ => true

/-- Keys of a mapping body are pairwise distinct. -/
def nodupKeysB : List (String × Val) → Bool
  | [] => true
  | (k, _) :: rest => !(rest.any (fun p => p.1 = k)) && nodupKeysB rest

/-- All values of a mapping body are well-formed. -/
def wfEntries : List (String × Val) → Bool
  | [] => true
  | (_, v) :: rest => wfVal v && wfEntries rest

end

example : mergeVal (Val.vmap [("a", Val.vint 1)]) (Val.vmap [("a", Val.vint 2), ("b", Val.vstr "x")])
    = Val.vmap [("a", Val.vint 2), ("b", Val.vstr "x")] := by decide

example : wfVal (Val.vmap [("a", Val.vint 1), ("b", Val.vmap [("c", Val.vint 2)])]) = true := by decide

/-! ### Character-list string utilities (Python `str` operations) -/

/-- `listStarts p l`: the list `l` begins with `p` (Python `startswith`). -/
def listStarts : List Char → List Char → Bool
  | [], _ => true
  | _ :: _, [] => false
  | a :: as, b :: bs => a == b && listStarts as bs

/-- `strStarts p s`: the string `s` begins with `p`. -/
def strStarts (p s : String) : Bool := listStarts p.data s.data

/-- `strEnds suf s`: the string `s` ends with `suf`. -/
def strEnds (suf s : String) : Bool := listStarts suf.data.reverse s.data.reverse

/-- Membership of a character in a character list. -/
def charIn (c : Char) : List Char → Bool
  | [] => false
  | x :: rest => x == c || charIn c rest

/-- Python `c in s` for a single character. -/
def containsChar (s : String) (c : Char) : Bool := charIn c s.data

/-- Drop the first `n` characters (Python slicing `s[n:]`). -/
def strDropN (s : String) (n : Nat) : String := String.mk (s.data.drop n)

/-- Split at the first `=`, Python `s.split("=", 1)` (only used when `=` occurs). -/
def splitFirstEqL : List Char → Option (List Char × List Char)
  | [] => none
  | c :: rest =>
      if c == '=' then some ([], rest)
      else
        match splitFirstEqL rest with
        | some (a, b) => some (c :: a, b)
        | none => none

def splitFirstEq (s : String) : String × String :=
  match splitFirstEqL s.data with
  | some (a, b) => (String.mk a, String.mk b)
  | none => (s, "")

/-- Python `s.split(c)` on a single-character separator. -/
def splitOnCharL (c : Char) : List Char → List (List Char)
  | [] => [[]]
  | x :: rest =>
      let r := splitOnCharL c rest
      if x == c then [] :: r
      else
        match r with
        | [] => [[x]]
        | h :: t => (x :: h) :: t

/-- The `/`-separated components of a path string. -/
def pathSegs (p : String) : List (List Char) := splitOnCharL '/' p.data

/-- `Path.name`: the last path component. -/
def baseName (p : String) : String := String.mk ((pathSegs p).getLast?.getD [])

/-- `Path.stem`: the last path component without its final extension
(a leading-dot-only name such as `.yaml` has no extension). -/
def stemOf (p : String) : String :=
  let b := (pathSegs p).getLast?.getD []
  let parts := splitOnCharL '.' b
  if parts.length ≤ 1 then String.mk b
  else if parts.length = 2 && (parts.head?.getD []).isEmpty then String.mk b
  else String.mk (List.intercalate ['.'] parts.dropLast)

/-- Python `s.rsplit("/", 1)` for a string known to contain `/`:
split at the last slash into (group, name). -/
def rsplitSlash (s : String) : String × String :=
  let parts := pathSegs s
  (String.mk (List.intercalate ['/'] parts.dropLast), String.mk (parts.getLast?.getD []))

/-- `s in t` for strings (Python substring test). -/
def isSubstrL (pat : List Char) : List Char → Bool
  | [] => listStarts pat []
  | c :: rest => listStarts pat (c :: rest) || isSubstrL pat rest

example : rsplitSlash "a/b/c" = ("a/b", "c") := by decide
example : stemOf "cfg/config.yaml" = "config" := by decide
example : splitFirstEq "x=5=6" = ("x", "5=6") := by decide

/-! ### File-system model

The configuration tree is an association list from path strings to file
contents plus a set of directories.  File contents are either parseable YAML
(already in structured form), unparseable text, or a snapshot manifest
(`meta.json`, whose JSON payload is abstracted to its `modules` list, `none`
standing for corrupt JSON). -/

inductive FileData where
  | yaml : Val → FileData
  | raw : String → FileData
  | meta : Option (List String) → FileData
deriving DecidableEq, Repr

structure FS where
  files : List (String × FileData)
  dirs : List String
deriving DecidableEq, Repr

def lookupFileL : List (String × FileData) → String → Option FileData
  | [], _ => none
  | (p2, d) :: rest, p => if p2 = p then some d else lookupFileL rest p

def lookupFile (fs : FS) (p : String) : Option FileData := lookupFileL fs.files p

def fileExists (fs : FS) (p : String) : Bool := (lookupFile fs p).isSome

def dirExists (fs : FS) (p : String) : Bool := fs.dirs.contains p

/-- `Path.exists()`: true for files and directories. -/
def existsPath (fs : FS) (p : String) : Bool := fileExists fs p || dirExists fs p

def setFileL : List (String × FileData) → String → FileData → List (String × FileData)
  | [], p, d => [(p, d)]
  | (p2, d2) :: rest, p, d =>
      if p2 = p then (p2, d) :: rest else (p2, d2) :: setFileL rest p d

/-- Write (create or overwrite) a file. -/
def setFile (fs : FS) (p : String) (d : FileData) : FS := ⟨setFileL fs.files p d, fs.dirs⟩

def addDir (fs : FS) (p : String) : FS :=
  if fs.dirs.contains p then fs else ⟨fs.files, fs.dirs ++ [p]⟩

def addDirs (fs : FS) (ps : List String) : FS := ps.foldl addDir fs

/-- All proper ancestor directories of a path (`parent.mkdir(parents=True)`). -/
def ancestors (p : String) : List String :=
  let segs := (pathSegs p).dropLast
  (List.range segs.length).map (fun i => String.mk (List.intercalate ['/'] (segs.take (i + 1))))

example : ancestors "a/b/c.yaml" = ["a", "a/b"] := by decide

/-! ### Main-config discovery (`_find_main_config` in parser.py / merger.py) -/

/-- Python truthiness of a YAML value. -/
def truthy : Val → Bool
  | .vstr s => !s.data.isEmpty
  | .vint n => n != 0
  | .vmap m => !m.isEmpty
  | .vlist l => !l.isEmpty

/-- Python `"defaults" in content` (key test for dicts, membership for lists,
substring for strings; a `TypeError` on other types is swallowed). -/
def hasDefaultsKey : Val → Bool
  | .vmap m => m.any (fun p => p.1 = "defaults")
  | .vlist l => l.any (fun v => v == Val.vstr "defaults")
  | .vstr s => isSubstrL "defaults".data s.data
  | .vint _ => false

def hasDefaultsContent : FileData → Bool
  | .yaml v => truthy v && hasDefaultsKey v
  | _ => false

/-- `config_dir.glob("*.yaml")`: top-level `.yaml` files, in store order. -/
def isTopYaml (dir p : String) : Bool :=
  strStarts (dir ++ "/") p &&
  (let rest := p.data.drop (dir ++ "/").data.length
   !charIn '/' rest && listStarts ".yaml".data.reverse rest.reverse)

def candYamls (fs : FS) (dir : String) : List String :=
  fs.files.filterMap (fun q => if isTopYaml dir q.1 then some q.1 else none)

/-- First top-level YAML file whose content is truthy and "contains"
`defaults`; otherwise the first top-level YAML file, if any. -/
def findMainConfig (fs : FS) (dir : String) : Option String :=
  match (candYamls fs dir).find? (fun p =>
      match lookupFile fs p with
      | some fd => hasDefaultsContent fd
      | none => false) with
  | some p => some p
  | none => (candYamls fs dir).head?

/-- The merger's variant: prefer an explicitly selected main config when it
still exists (`ConfigMerger._find_main_config`). -/
def findMainConfigM (fs : FS) (dir : String) (pref : Option String) : Option String :=
  match pref with
  | some p => if existsPath fs p then some p else findMainConfig fs dir
  | none => findMainConfig fs dir

/-! ### Module Resolver (`HydraConfigParser`) -/

structure ConfigModule where
  group : String
  name : String
  path : Option String
  resolved : Bool
  is_group : Bool := false
deriving DecidableEq, Repr

/-- `HydraConfigParser._add_module`: resolve `<dir>/<group>/<name>.yaml` and
append a module with `resolved` = existence, `path` set only when resolved. -/
def addModule (fs : FS) (dir g n : String) : ConfigModule :=
  let full := dir ++ "/" ++ g ++ "/" ++ n ++ ".yaml"
  let r := existsPath fs full
  ⟨g, n, if r then some full else none, r, false⟩

/-- The body of the defaults-entry loop in `HydraConfigParser.parse`
(one defaults entry processed against the accumulated module list). -/
def parseStep (fs : FS) (dir : String) (ms : List ConfigModule) : Val → List ConfigModule
  | .vstr s =>
      if s = "_self_" then ms
      else if containsChar s '/' then
        let gn := rsplitSlash s
        ms ++ [addModule fs dir gn.1 gn.2]
      else
        let p := dir ++ "/" ++ s ++ ".yaml"
        if existsPath fs p then ms ++ [⟨"root", s, some p, true, false⟩] else ms
  | .vmap m =>
      ms ++ m.filterMap (fun gn =>
        match gn.2 with
        | .vstr n => some (addModule fs dir gn.1 n)
        | _ => none)
  | _ => ms

/-- Extraction of the defaults list from the loaded root mapping
(`cfg.get("defaults", [])` + truthiness + `OmegaConf.to_container`): a YAML
sequence yields its items, a mapping yields its keys (Python iterates dict
keys), a truthy scalar makes `to_container` raise. -/
def defaultsItemsE (base : List (String × Val)) : Except String (List Val) :=
  match lookupFirst base "defaults" with
  | none => .ok []
  | some v =>
      if truthy v then
        match v with
        | .vlist l => .ok l
        | .vmap m => .ok (m.map (fun p => Val.vstr p.1))
        | _ => .error "defaults node is not an OmegaConf container"
      else .ok []

/-- `HydraConfigParser.parse` after reading the main-config file: a loaded
root mapping yields the fold of the defaults loop; any load/parse failure or
non-mapping content yields `[]`. -/
def parseFromFile (fs : FS) (dir : String) (fd : Option FileData) : List ConfigModule :=
  match fd with
  | some (.yaml (.vmap base)) =>
      match defaultsItemsE base with
      | .error _ => []
      | .ok dl => dl.foldl (parseStep fs dir) []
  | _ => []

/-- `HydraConfigParser.parse`: load the main config, read its defaults list,
process every entry in order; every failure short-circuits to `[]`. -/
def parseDefaults (fs : FS) (dir : String) (mainOpt : Option String) : List ConfigModule :=
  match mainOpt with
  | none => []
  | some mp => parseFromFile fs dir (lookupFile fs mp)

example :
    parseDefaults
      ⟨[("cfg/config.yaml",
          .yaml (.vmap [("defaults", .vlist [.vstr "_self_", .vmap [("db", .vstr "mysql")]])])),
        ("cfg/db/mysql.yaml", .yaml (.vmap [("a", .vint 2)]))], []⟩
      "cfg" (some "cfg/config.yaml")
    = [⟨"db", "mysql", some "cfg/db/mysql.yaml", true, false⟩] := by decide

/-! ### Merge Engine, manual fallback (`ConfigMerger._merge_manual`) -/

/-- `OmegaConf.load` of a module file. -/
def loadYamlVal (fs : FS) (p : String) : Except String Val :=
  match lookupFile fs p with
  | some (.yaml v) => .ok v
  | some _ => .error ("failed to parse " ++ p)
  | none => .error ("failed to read " ++ p)

/-- `cfg.merge_with(mod_cfg)` on a top-level DictConfig: merging a
non-mapping into a DictConfig raises. -/
def mergeTop (acc : List (String × Val)) (mod : Val) : Except String (List (String × Val)) :=
  match mod with
  | .vmap m => .ok (mergeList acc m)
  | _ => .error "cannot merge non-mapping content into a DictConfig"

/-- `ConfigMerger._merge_module_by_name`: a plain string entry loads
`<dir>/<name>.yaml` (if present) and merges it at top level. -/
def mergeModuleByName (fs : FS) (dir : String) (acc : List (String × Val)) (name : String) :
    Except String (List (String × Val)) :=
  let p := dir ++ "/" ++ name ++ ".yaml"
  if existsPath fs p then
    match loadYamlVal fs p with
    | .ok mod => mergeTop acc mod
    | .error e => .error e
  else .ok acc

/-- `ConfigMerger._merge_module_by_group`: load `<dir>/<group>/<name>.yaml`
(if present) and merge it under its group key — the source does this twice
in succession, re-loading the same file. -/
def mergeModuleByGroup (fs : FS) (dir : String) (acc : List (String × Val)) (g n : String) :
    Except String (List (String × Val)) :=
  let p := dir ++ "/" ++ g ++ "/" ++ n ++ ".yaml"
  if existsPath fs p then
    match loadYamlVal fs p with
    | .ok mod =>
        let acc1 := mergeList acc [(g, mod)]
        match loadYamlVal fs p with
        | .ok mod2 => .ok (mergeList acc1 [(g, mod2)])
        | .error e => .error e
    | .error e => .error e
  else .ok acc

/-- Exception-propagating fold: a Python `for` loop whose body may raise. -/
def foldE {α β : Type} (step : α → β → Except String α) : α → List β → Except String α
  | a, [] => .ok a
  | a, x :: rest =>
      match step a x with
      | .ok a2 => foldE step a2 rest
      | .error e => .error e

/-- The inner body of the mapping-entry loop in `_merge_manual`:
`override`-prefixed groups are skipped, string-valued selections are merged
under their group, anything else is ignored. -/
def manualPairStep (fs : FS) (dir : String) (acc : List (String × Val))
    (gn : String × Val) : Except String (List (String × Val)) :=
  if gn.1 = "override" || strStarts "override " gn.1 then .ok acc
  else
    match gn.2 with
    | .vstr n => mergeModuleByGroup fs dir acc gn.1 n
    | _ => .ok acc

/-- The body of the defaults loop in `_merge_manual`: process one defaults
entry against the accumulator.  `"_self_"` merges the *whole* loaded root
mapping; mapping entries skip `override`-prefixed groups. -/
def manualStep (fs : FS) (dir : String) (base : List (String × Val))
    (acc : List (String × Val)) : Val → Except String (List (String × Val))
  | .vstr s =>
      if s = "_self_" then .ok (mergeList acc base)
      else mergeModuleByName fs dir acc s
  | .vmap m => foldE (manualPairStep fs dir) acc m
  | _ => .ok acc

/-- Digit lookup for the override-value parser. -/
def charDigit (c : Char) : Option Nat :=
  if c == '0' then some 0 else if c == '1' then some 1 else if c == '2' then some 2
  else if c == '3' then some 3 else if c == '4' then some 4 else if c == '5' then some 5
  else if c == '6' then some 6 else if c == '7' then some 7 else if c == '8' then some 8
  else if c == '9' then some 9 else none

def parseNatGo : Nat → List Char → Option Nat
  | acc, [] => some acc
  | acc, c :: rest =>
      match charDigit c with
      | some d => parseNatGo (acc * 10 + d) rest
      | none => none

/-- Integer-literal recognition for override values. -/
def strToIntQ (s : String) : Option Int :=
  match s.data with
  | [] => none
  | '-' :: rest =>
      match rest with
      | [] => none
      | _ => (parseNatGo 0 rest).map (fun nn => -(nn : Int))
  | l => (parseNatGo 0 l).map (fun nn => (nn : Int))

/-- A YAML scalar: integer literals become ints; floats, booleans, null and
every other scalar keep their literal text.  All non-container scalars behave
identically under the OmegaConf merge (they replace), so their exact Python
type is immaterial to the merge model. -/
def scalarVal (s : String) : Val :=
  match strToIntQ s with
  | some n => .vint n
  | none => .vstr s

def flowSp (c : Char) : Bool := c == ' '

/-- Characters ending a plain scalar token inside a flow collection. -/
def flowStop (c : Char) : Bool := c == ',' || c == '}' || c == ']' || c == ':'

def trimEndSp (l : List Char) : List Char := (l.reverse.dropWhile flowSp).reverse

mutual

/-- One flow-style YAML value (`{...}`, `[...]`, or a plain scalar token):
fuel-bounded recursive descent returning the value and the unconsumed rest. -/
def parseFlow : Nat → List Char → Option (Val × List Char)
  | 0, _ => none
  | fuel + 1, l =>
      match l.dropWhile flowSp with
      | '{' :: r =>
          (match r.dropWhile flowSp with
           | '}' :: r2 => some (.vmap [], r2)
           | _ => (parseEntries fuel r).map (fun p => (.vmap p.1, p.2)))
      | '[' :: r =>
          (match r.dropWhile flowSp with
           | ']' :: r2 => some (.vlist [], r2)
           | _ => (parseItems fuel r).map (fun p => (.vlist p.1, p.2)))
      | r =>
          let tok := r.takeWhile (fun c => !flowStop c)
          if tok.isEmpty then none
          else some (scalarVal (String.mk (trimEndSp tok)), r.drop tok.length)

/-- `key: value` entries of a flow mapping, consuming the closing `}`. -/
def parseEntries : Nat → List Char → Option (List (String × Val) × List Char)
  | 0, _ => none
  | fuel + 1, l =>
      let r0 := l.dropWhile flowSp
      let ktok := r0.takeWhile (fun c => !flowStop c)
      match r0.drop ktok.length with
      | ':' :: r1 =>
          (match parseFlow fuel r1 with
           | some (v, r2) =>
               (match r2.dropWhile flowSp with
                | ',' :: r3 =>
                    (parseEntries fuel r3).map
                      (fun p => ((String.mk (trimEndSp ktok), v) :: p.1, p.2))
                | '}' :: r3 => some ([(String.mk (trimEndSp ktok), v)], r3)
                | _ => none)
           | none => none)
      | _ => none

/-- Items of a flow sequence, consuming the closing `]`. -/
def parseItems : Nat → List Char → Option (List Val × List Char)
  | 0, _ => none
  | fuel + 1, l =>
      match parseFlow fuel l with
      | some (v, r1) =>
          (match r1.dropWhile flowSp with
           | ',' :: r2 => (parseItems fuel r2).map (fun p => (v :: p.1, p.2))
           | ']' :: r2 => some ([v], r2)
           | _ => none)
      | none => none

end

/-- `yaml.unsafe_load` applied by `merge_with_dotlist` to the text right of
the first `=`: flow collections parse to mappings and lists, integer literals
to ints, and other scalars keep their text (`scalarVal`).  The model covers
canonically spaced flow syntax; flow text the descent cannot complete is
conservatively kept as text (the real parser would raise there, a region no
theorem relies on: their hypotheses exclude `{` and `[` entirely). -/
def yamlValue (v : String) : Val :=
  let t := v.data.dropWhile flowSp
  if t.headD ' ' == '{' || t.headD ' ' == '[' then
    match parseFlow (2 * v.data.length + 2) v.data with
    | some (val, r) => if (r.dropWhile flowSp).isEmpty then val else .vstr v
    | none => .vstr v
  else scalarVal v

/-- A conservatively "plainly scalar" override value: none of the characters
that could open a YAML container (flow braces and brackets, the block-mapping
colon, line breaks, tabs) and no leading indicator character (block-sequence
dash, explicit-key `?`, tag, anchor, alias, quote, comma, directive, block
scalar header, or the reserved `@`/`\x60`).  `yaml.unsafe_load` yields a plain
non-container scalar on every such string, and `yamlValue` yields
`scalarVal`. -/
def plainScalarLike (v : String) : Bool :=
  !containsChar v '{' && !containsChar v '[' && !containsChar v ':' &&
  !containsChar v '\n' && !containsChar v '\r' && !containsChar v '\t' &&
  (match v.data.dropWhile flowSp with
   | [] => true
   | c :: rest =>
       !(c == '?' || c == '!' || c == '&' || c == '*' || c == ',' || c == '%' ||
         c == '@' || c == '\x60' || c == '|' || c == '>' || c == '"' || c == '\x27') &&
       !(c == '-' && (rest.isEmpty || rest.headD 'x' == ' ')))

/-- Override cleaning in `_merge_manual`: drop `~`-removals and entries
without `=`, strip a leading `++`/`+` from the key. -/
def cleanOverrides (ovs : List String) : List String :=
  ovs.filterMap (fun ov =>
    if strStarts "~" ov then none
    else if !containsChar ov '=' then none
    else
      let kv := splitFirstEq ov
      let k :=
        if strStarts "++" kv.1 then strDropN kv.1 2
        else if strStarts "+" kv.1 then strDropN kv.1 1
        else kv.1
      some (k ++ "=" ++ kv.2))

/-- Set a key to a value (replace first occurrence or append). -/
def setScalar (a : List (String × Val)) (k : String) (nv : Val) : List (String × Val) :=
  match lookupFirst a k with
  | some _ => replaceFirst a k nv
  | none => a ++ [(k, nv)]

/-- One dotted-key assignment of `OmegaConf.from_dotlist`
(`OmegaConf.update(cfg, key, yaml.unsafe_load(value))`, which merges by
default): navigate/create nested mappings along the dotted path, then merge
the parsed value with the leaf — deep-merging when both are mappings,
replacing otherwise. -/
def dotSet (a : List (String × Val)) : List String → String → List (String × Val)
  | [], _ => a
  | [s], v =>
      (match lookupFirst a s with
       | some old => replaceFirst a s (mergeVal old (yamlValue v))
       | none => a ++ [(s, yamlValue v)])
  | s :: s2 :: rest, v =>
      match lookupFirst a s with
      | some (.vmap sub) => replaceFirst a s (.vmap (dotSet sub (s2 :: rest) v))
      | some _ => setScalar a s (.vmap (dotSet [] (s2 :: rest) v))
      | none => a ++ [(s, .vmap (dotSet [] (s2 :: rest) v))]

def splitDots (k : String) : List String := (splitOnCharL '.' k.data).map String.mk

/-- `OmegaConf.from_dotlist` over already-cleaned `key=value` strings. -/
def fromDotlist (entries : List String) : List (String × Val) :=
  entries.foldl (fun acc e =>
    let kv := splitFirstEq e
    dotSet acc (splitDots kv.1) kv.2) []

/-- The tail of `_merge_manual` once the defaults list `dl` is known:
fold the defaults loop from an empty accumulator, fall back to the whole
root when the defaults list was empty, then deep-merge the cleaned
overrides last. -/
def manualFinish (fs : FS) (dir : String) (base : List (String × Val)) (dl : List Val)
    (ovs : List String) : Except String (List (String × Val)) :=
  match foldE (manualStep fs dir base) [] dl with
  | .error e => .error e
  | .ok acc =>
      let accA := if dl.isEmpty then base else acc
      let co := cleanOverrides ovs
      .ok (if co.isEmpty then accA else mergeList accA (fromDotlist co))

def mergeManualFromBase (fs : FS) (dir : String) (base : List (String × Val))
    (ovs : List String) : Except String (List (String × Val)) :=
  match defaultsItemsE base with
  | .error e => .error e
  | .ok dl => manualFinish fs dir base dl ovs

/-- `OmegaConf.load` of the root document plus the DictConfig wrap
(`DictConfig(...)` of non-mapping content raises). -/
def loadAsDict (fs : FS) (p : String) : Except String (List (String × Val)) :=
  match lookupFile fs p with
  | some (.yaml (.vmap m)) => .ok m
  | some (.yaml _) => .error "cannot construct a DictConfig from non-mapping content"
  | some _ => .error ("failed to parse " ++ p)
  | none => .error ("failed to read " ++ p)

/-- The structured result of `_merge_manual` for a given root document path
(everything inside its `try` block up to rendering). -/
def mergeManualCore (fs : FS) (dir mp : String) (ovs : List String) :
    Except String (List (String × Val)) :=
  match loadAsDict fs mp with
  | .ok base => mergeManualFromBase fs dir base ovs
  | .error e => .error e

/-! ### Rendering (`OmegaConf.to_yaml`, simplified but total) -/

def scalarText : Val → String
  | .vstr s => s
  | .vint n => toString n
  | .vmap _ => ""
  | .vlist _ => ""

def indent2 (l : List String) : List String := l.map (fun s => "  " ++ s)

mutual

def renderLines : Val → List String
  | .vmap m => renderEntryLines m
  | .vlist l => renderItemLines l
  | v => [scalarText v]

def renderEntryLines : List (String × Val) → List String
  | [] => []
  | (k, v) :: rest => renderPair k v ++ renderEntryLines rest

def renderPair : String → Val → List String
  | k, .vmap m =>
      if m.isEmpty then [k ++ ": {}"] else (k ++ ":") :: indent2 (renderEntryLines m)
  | k, .vlist l =>
      if l.isEmpty then [k ++ ": []"] else (k ++ ":") :: renderItemLines l
  | k, v => [k ++ ": " ++ scalarText v]

def renderItemLines : List Val → List String
  | [] => []
  | v :: rest => renderItem v ++ renderItemLines rest

def renderItem : Val → List String
  | .vmap m => "-" :: indent2 (renderEntryLines m)
  | .vlist l => "-" :: indent2 (renderItemLines l)
  | v => ["- " ++ scalarText v]

end

def toYamlStr (v : Val) : String :=
  String.intercalate "\n" (renderLines v) ++ "\n"

/-- Rendering or commenting the manual merge result for a given root path
(the lower half of `_merge_manual`). -/
def mergeManualRender (fs : FS) (dir mp : String) (ovs : List String) : String :=
  match mergeManualCore fs dir mp ovs with
  | .ok m => toYamlStr (.vmap m)
  | .error e => "# Error merging config:\n# " ++ e

def mergeManualStr (fs : FS) (dir : String) (pref : Option String) (ovs : List String) : String :=
  match findMainConfigM fs dir pref with
  | none => "# Error: No config.yaml found"
  | some mp => mergeManualRender fs dir mp ovs

/-! ### Merge Engine, primary (Hydra) strategy (`ConfigMerger.merge`)

The Hydra compose API is external to this repository; its behaviour on a
given config name and override list is a parameter of the model. -/

structure HydraOracle (σ : Type) where
  compose : String → List String → Except String σ
  toYamlResolved : σ → Except String String
  toYamlRaw : σ → String

/-- `ConfigMerger._merge_with_hydra`: compose (may fail), then try resolved
rendering, degrading to raw text behind a warning comment on failure. -/
def mergeWithHydra {σ : Type} (h : HydraOracle σ) (name : String) (ovs : List String) :
    Except String String :=
  match h.compose name ovs with
  | .error e => .error e
  | .ok cfg =>
      match h.toYamlResolved cfg with
      | .ok s => .ok s
      | .error e =>
          .ok ("# ⚠ Warning: some interpolations could not be resolved\n#   (" ++ e ++ ")\n"
                ++ h.toYamlRaw cfg)

/-- The `try/except` around the primary strategy in `ConfigMerger.merge`:
a successful compose renders directly; a composition failure recovers into
the manual fallback behind a warning comment. -/
def mergeTry {σ : Type} (h : HydraOracle σ) (fs : FS) (dir : String)
    (pref : Option String) (ovs : List String) (nm : String) : String :=
  match mergeWithHydra h nm ovs with
  | .ok s => s
  | .error e =>
      "# ⚠ Hydra compose failed (" ++ e ++ "); showing manual OmegaConf merge\n"
        ++ mergeManualStr fs dir pref ovs

/-- `ConfigMerger.merge`: primary strategy first, manual fallback behind a
warning comment when composition itself fails. -/
def mergeConfig {σ : Type} (h : HydraOracle σ) (fs : FS) (dir : String)
    (pref : Option String) (ovs : List String) : String :=
  match findMainConfigM fs dir pref with
  | none => "# Error: No config.yaml found"
  | some mp => mergeTry h fs dir pref ovs (stemOf mp)

/-! ### Snapshot Engine (`SnapshotManager`) -/

/-- Reading a snapshot manifest: `meta.json` must exist and be valid JSON
(`meta none` stands for corrupt JSON, any non-manifest content is equally
unreadable); its `modules` list is the payload. -/
def readMeta : Option FileData → Option (List String)
  | some (.meta (some rels)) => some rels
  | _ => none

/-- `path.relative_to(config_dir)`; `none` models the `ValueError` that the
source swallows with `try/except: pass`. -/
def relTo (dir p : String) : Option String :=
  if strStarts (dir ++ "/") p then some (strDropN p (dir ++ "/").data.length) else none

/-- `SnapshotManager.create(tag)`: `verify_backup_dir` makes the backup root
only when nothing exists at that path; then `backup_path.mkdir()` raises
`NotADirectoryError` when the backup root is a plain file (the parent cannot
be resolved as a directory) and `FileExistsError` when the timestamped
snapshot directory already exists — e.g. two snapshots with the same
timestamp and tag.  Otherwise copy the main config and every resolved module
(best effort, failures skipped) and write the manifest.  `ts` is the
formatted timestamp string. -/
def snapshotCreate (fs : FS) (dir ts tag : String) : Except String (FS × String) :=
  let broot := dir ++ "/.hydra_backups"
  let fs1 := if existsPath fs broot then fs else addDir fs broot
  let bp := broot ++ "/" ++ ts ++ "_" ++ tag
  if fileExists fs1 broot then .error "NotADirectoryError"
  else if existsPath fs1 bp then .error "FileExistsError"
  else
  let fs2 := addDir fs1 bp
  let mainOpt := findMainConfig fs2 dir
  let mods := parseDefaults fs2 dir mainOpt
  let st :=
    match mainOpt with
    | some mp =>
        match lookupFile fs2 mp with
        | some c => (setFile fs2 (bp ++ "/" ++ baseName mp) c, [baseName mp])
        | none => (fs2, ([] : List String))
    | none => (fs2, ([] : List String))
  let st2 := mods.foldl (fun st m =>
      if m.resolved then
        match m.path with
        | some p =>
            match relTo dir p with
            | some rel =>
                match lookupFile st.1 p with
                | some c =>
                    (setFile (addDirs st.1 (ancestors (bp ++ "/" ++ rel))) (bp ++ "/" ++ rel) c,
                     st.2 ++ [rel])
                | none => st
            | none => st
        | none => st
      else st) st
  .ok (setFile st2.1 (bp ++ "/meta.json") (.meta (some st2.2)), bp)

/-- The restore copy loop: for each manifest path, copy the snapshot's file
over the live one (creating parent directories first); missing snapshot
files are silently skipped. -/
def restoreLoop (dir sp : String) : FS → List String → FS
  | fs, [] => fs
  | fs, rel :: rest =>
      let source := sp ++ "/" ++ rel
      let dest := dir ++ "/" ++ rel
      match lookupFile fs source with
      | some c => restoreLoop dir sp (setFile (addDirs fs (ancestors dest)) dest c) rest
      | none => restoreLoop dir sp fs rest

/-- `SnapshotManager.restore(snapshot_path)`: create a `pre_restore_backup`
snapshot first (a failure there — e.g. `FileExistsError` — propagates with
the store untouched), then read the target manifest (raising — `some error`
— when it is missing or corrupt), then run the copy loop. -/
def snapshotRestore (fs : FS) (dir ts sp : String) : FS × Option String :=
  match snapshotCreate fs dir ts "pre_restore_backup" with
  | .error e => (fs, some e)
  | .ok (fs1, _) =>
      match readMeta (lookupFile fs1 (sp ++ "/meta.json")) with
      | none => (fs1, some "Snapshot metadata not found")
      | some rels => (restoreLoop dir sp fs1 rels, none)

/-! ### Defaults-entry rewriting (`HydraConfigParser.update_defaults_item`)

The source rewrites the raw text with two anchored multiline regexes:
string form `^([ \t]*)- (override )?group/name(\s*)$` first, and only when
it matches nowhere, mapping form `^([ \t]*)- (override )?group\s*:\s*name(\s*)$`.
We model the text as its list of lines and each regex as a deterministic
matcher returning the captured (indent, override-marker, trailing-whitespace);
like the regex engine, the optional `override ` group is tried present
first. -/

def spaceTab (c : Char) : Bool := c == ' ' || c == '\t'

def wsChar (c : Char) : Bool :=
  c == ' ' || c == '\t' || c == '\n' || c == '\r' || c == '\x0b' || c == '\x0c'

/-- Match one line against the string-form pattern for `oldG/oldN`. -/
def matchStrForm (oldG oldN : String) (line : String) : Option (String × String × String) :=
  let l := line.data
  let ind := l.takeWhile spaceTab
  let t0 := l.dropWhile spaceTab
  if listStarts "- ".data t0 then
    let t := t0.drop 2
    let gn := (oldG ++ "/" ++ oldN).data
    if listStarts "override ".data t && listStarts gn (t.drop 9)
        && ((t.drop 9).drop gn.length).all wsChar then
      some (String.mk ind, "override ", String.mk ((t.drop 9).drop gn.length))
    else if listStarts gn t && (t.drop gn.length).all wsChar then
      some (String.mk ind, "", String.mk (t.drop gn.length))
    else none
  else none

/-- The `group\s*:\s*name(\s*)$` tail of the mapping-form pattern. -/
def dictTail (oldG oldN : String) (t : List Char) : Option (List Char) :=
  if listStarts oldG.data t then
    let u := (t.drop oldG.data.length).dropWhile wsChar
    match u with
    | ':' :: u2 =>
        let v := u2.dropWhile wsChar
        if listStarts oldN.data v && (v.drop oldN.data.length).all wsChar then
          some (v.drop oldN.data.length)
        else none
    | _ => none
  else none

/-- Match one line against the mapping-form pattern for `oldG: oldN`. -/
def matchDictForm (oldG oldN : String) (line : String) : Option (String × String × String) :=
  let l := line.data
  let ind := l.takeWhile spaceTab
  let t0 := l.dropWhile spaceTab
  if listStarts "- ".data t0 then
    let t := t0.drop 2
    if listStarts "override ".data t then
      match dictTail oldG oldN (t.drop 9) with
      | some rest => some (String.mk ind, "override ", String.mk rest)
      | none =>
          match dictTail oldG oldN t with
          | some rest => some (String.mk ind, "", String.mk rest)
          | none => none
    else
      match dictTail oldG oldN t with
      | some rest => some (String.mk ind, "", String.mk rest)
      | none => none
  else none

/-- The string-form replacement (`_repl_str`). -/
def rewriteStr1 (oldG oldN newG newN : String) (line : String) : String :=
  match matchStrForm oldG oldN line with
  | some (ind, ov, rest) => ind ++ "- " ++ ov ++ newG ++ "/" ++ newN ++ rest
  | none => line

/-- The mapping-form replacement (`_repl_dict`, normalising `: ` spacing). -/
def rewriteDict (oldG oldN newG newN : String) (line : String) : String :=
  match matchDictForm oldG oldN line with
  | some (ind, ov, rest) => ind ++ "- " ++ ov ++ newG ++ ": " ++ newN ++ rest
  | none => line

/-- `HydraConfigParser.update_defaults_item` on the root document's lines:
global substitution with the string-form pattern; if it matched nowhere,
global substitution with the mapping-form pattern; if that matched nowhere
either, the entry-not-found error. -/
def updateDefaultsItem (lines : List String) (oldG oldN newG newN : String) :
    Except String (List String) :=
  let n1 := lines.countP (fun l => (matchStrForm oldG oldN l).isSome)
  if n1 ≠ 0 then .ok (lines.map (rewriteStr1 oldG oldN newG newN))
  else
    let n2 := lines.countP (fun l => (matchDictForm oldG oldN l).isSome)
    if n2 ≠ 0 then .ok (lines.map (rewriteDict oldG oldN newG newN))
    else .error ("Could not find defaults entry for " ++ oldG ++ "/" ++ oldN)

example :
    updateDefaultsItem ["defaults:", "  - model/resnet", "  - _self_"] "model" "resnet"
      "model" "resnet50"
    = .ok ["defaults:", "  - model/resnet50", "  - _self_"] := by decide

example :
    updateDefaultsItem ["defaults:", "  - override model: resnet"] "model" "resnet" "db" "mysql"
    = .ok ["defaults:", "  - override db: mysql"] := by decide

/-! ### Lemmas about the deep merge -/

theorem lookupFirst_append (a b : List (String × Val)) (k : String) :
    lookupFirst (a ++ b) k =
      match lookupFirst a k with
      | some w => some w
      | none => lookupFirst b k := by
  induction a with
  | nil => simp [lookupFirst]
  | cons p rest ih =>
      obtain ⟨k2, w⟩ := p
      by_cases h : k2 = k
      · simp [lookupFirst, h]
      · simp [lookupFirst, h, ih]

theorem lookupFirst_replaceFirst_same (a : List (String × Val)) (k : String) (nv : Val) :
    lookupFirst (replaceFirst a k nv) k =
      match lookupFirst a k with
      | some _ => some nv
      | none => none := by
  induction a with
  | nil => simp [lookupFirst, replaceFirst]
  | cons p rest ih =>
      obtain ⟨k2, w⟩ := p
      by_cases h : k2 = k
      · simp [lookupFirst, replaceFirst, h]
      · simp [lookupFirst, replaceFirst, h, ih]

theorem lookupFirst_replaceFirst_ne (a : List (String × Val)) (k1 k2 : String) (nv : Val)
    (h : k1 ≠ k2) :
    lookupFirst (replaceFirst a k1 nv) k2 = lookupFirst a k2 := by
  induction a with
  | nil => simp [replaceFirst]
  | cons p rest ih =>
      obtain ⟨k3, w⟩ := p
      by_cases h3 : k3 = k1
      · have h5 : ¬(k3 = k2) := by rw [h3]; exact h
        simp [replaceFirst, lookupFirst, h3, h5, h]
      · simp [replaceFirst, lookupFirst, h3, ih]

theorem replaceFirst_lookup_self (a : List (String × Val)) (k : String) (w : Val)
    (h : lookupFirst a k = some w) : replaceFirst a k w = a := by
  induction a with
  | nil => simp [replaceFirst]
  | cons p rest ih =>
      obtain ⟨k2, v2⟩ := p
      by_cases h2 : k2 = k
      · subst h2
        simp [lookupFirst] at h
        simp [replaceFirst, h]
      · simp [lookupFirst, h2] at h
        simp [replaceFirst, h2, ih h]

theorem mergeStep_lookup_same (a : List (String × Val)) (k : String) (v : Val) :
    lookupFirst (mergeStep a k v) k =
      some (match lookupFirst a k with
            | some w => mergeVal w v
            | none => v) := by
  unfold mergeStep
  cases h : lookupFirst a k with
  | none => simp [lookupFirst_append, h, lookupFirst]
  | some w => simp [lookupFirst_replaceFirst_same, h]

theorem mergeStep_lookup_ne (a : List (String × Val)) (k1 : String) (v : Val) (k2 : String)
    (h : k1 ≠ k2) :
    lookupFirst (mergeStep a k1 v) k2 = lookupFirst a k2 := by
  unfold mergeStep
  cases h1 : lookupFirst a k1 with
  | none =>
      rw [lookupFirst_append]
      cases h2 : lookupFirst a k2 <;> simp [lookupFirst, h]
  | some w => exact lookupFirst_replaceFirst_ne a k1 k2 _ h

theorem mergeStep_presence (a : List (String × Val)) (k1 : String) (v : Val) (k2 : String)
    (hp : (lookupFirst a k2).isSome) : (lookupFirst (mergeStep a k1 v) k2).isSome := by
  by_cases h : k1 = k2
  · subst h
    rw [mergeStep_lookup_same]
    rfl
  · rw [mergeStep_lookup_ne a k1 v k2 h]
    exact hp

theorem mergeList_lookup_of_not_mem (b : List (String × Val)) :
    ∀ (a : List (String × Val)) (k : String), (∀ p ∈ b, p.1 ≠ k) →
      lookupFirst (mergeList a b) k = lookupFirst a k := by
  induction b with
  | nil => intro a k _; rw [mergeList_nil]
  | cons p rest ih =>
      intro a k h
      obtain ⟨k1, v⟩ := p
      rw [mergeList_cons]
      rw [ih _ k (fun q hq => h q (List.mem_cons_of_mem _ hq))]
      exact mergeStep_lookup_ne a k1 v k (h (k1, v) (List.mem_cons_self _ _))

theorem mergeList_presence (b : List (String × Val)) :
    ∀ (a : List (String × Val)) (k : String), (lookupFirst a k).isSome →
      (lookupFirst (mergeList a b) k).isSome := by
  induction b with
  | nil => intro a k hp; rw [mergeList_nil]; exact hp
  | cons p rest ih =>
      intro a k hp
      obtain ⟨k1, v⟩ := p
      rw [mergeList_cons]
      exact ih _ k (mergeStep_presence a k1 v k hp)

theorem mergeList_key_present (b : List (String × Val)) :
    ∀ (a : List (String × Val)) (k : String), (lookupFirst b k).isSome →
      (lookupFirst (mergeList a b) k).isSome := by
  induction b with
  | nil => intro a k hp; simp [lookupFirst] at hp
  | cons p rest ih =>
      intro a k hp
      obtain ⟨k1, v⟩ := p
      rw [mergeList_cons]
      by_cases h : k1 = k
      · subst h
        refine mergeList_presence rest _ k1 ?_
        rw [mergeStep_lookup_same]
        rfl
      · simp [lookupFirst, h] at hp
        exact ih _ k hp

/-- Whether a value is a mapping (merge only recurses on mapping/mapping). -/
def isMapB : Val → Bool
  | .vmap _ => true
  | _ => false

theorem mergeVal_vstr (w : Val) (s : String) : mergeVal w (Val.vstr s) = Val.vstr s := by
  cases w <;> rfl

theorem mergeVal_vint (w : Val) (i : Int) : mergeVal w (Val.vint i) = Val.vint i := by
  cases w <;> rfl

theorem mergeVal_vlist (w : Val) (l : List Val) : mergeVal w (Val.vlist l) = Val.vlist l := by
  cases w <;> rfl

theorem mergeVal_vmap_vmap (am bm : List (String × Val)) :
    mergeVal (Val.vmap am) (Val.vmap bm) = Val.vmap (mergeList am bm) := rfl

theorem mergeVal_nonmap_vmap (w : Val) (bm : List (String × Val)) (h : isMapB w = false) :
    mergeVal w (Val.vmap bm) = Val.vmap bm := by
  cases w with
  | vmap m => simp [isMapB] at h
  | vstr s => rfl
  | vint i => rfl
  | vlist l => rfl

theorem mergeVal_nonmap (w v : Val) (h : isMapB v = false) : mergeVal w v = v := by
  cases v with
  | vmap m => simp [isMapB] at h
  | vstr s => exact mergeVal_vstr w s
  | vint i => exact mergeVal_vint w i
  | vlist l => exact mergeVal_vlist w l

theorem not_mem_keys_of_any_false {rest : List (String × Val)} {k : String}
    (hnot : (rest.any fun p => p.1 = k) = false) : ∀ p ∈ rest, p.1 ≠ k := by
  intro q hq hqk
  have hany : (rest.any fun p => p.1 = k) = true :=
    List.any_eq_true.mpr ⟨q, hq, by simp [hqk]⟩
  rw [hany] at hnot
  exact Bool.noConfusion hnot

/-- Absorb a single pair whose merge leaves the stored value unchanged. -/
theorem mergeStep_absorb (a : List (String × Val)) (k : String) (v u : Val)
    (h : lookupFirst a k = some u) (habs : mergeVal u v = u) : mergeStep a k v = a := by
  unfold mergeStep
  rw [h]
  show replaceFirst a k (mergeVal u v) = a
  rw [habs]
  exact replaceFirst_lookup_self a k u h

theorem mergeList_last_scalar (b : List (String × Val)) :
    ∀ (a : List (String × Val)) (k : String) (s : Val), nodupKeysB b = true →
      lookupFirst b k = some s → isMapB s = false →
      lookupFirst (mergeList a b) k = some s := by
  induction b with
  | nil => intro a k s _ h _; simp [lookupFirst] at h
  | cons p rest ih =>
      intro a k s hnd hl hs
      obtain ⟨k1, v⟩ := p
      simp only [nodupKeysB, Bool.and_eq_true, Bool.not_eq_true'] at hnd
      obtain ⟨hnot, hndr⟩ := hnd
      rw [mergeList_cons]
      by_cases h : k1 = k
      · subst h
        simp [lookupFirst] at hl
        subst hl
        rw [mergeList_lookup_of_not_mem rest _ k1 (not_mem_keys_of_any_false hnot)]
        rw [mergeStep_lookup_same]
        cases hla : lookupFirst a k1 <;> simp [mergeVal_nonmap _ _ hs]
      · simp [lookupFirst, h] at hl
        exact ih _ k s hndr hl hs

/-! ### Idempotence of re-merging the same well-formed fragment -/

theorem sizeOf_snd_lt_of_mem {m : List (String × Val)} {p : String × Val} (h : p ∈ m) :
    sizeOf p.2 < sizeOf m := by
  induction m with
  | nil => cases h
  | cons q rest ih =>
      rcases List.mem_cons.mp h with h1 | h2
      · subst h1
        obtain ⟨k, v⟩ := p
        simp only [List.cons.sizeOf_spec, Prod.mk.sizeOf_spec]
        omega
      · have := ih h2
        simp only [List.cons.sizeOf_spec]
        omega

theorem lookupFirst_of_mem_nodup {m : List (String × Val)} {k : String} {v : Val}
    (hnd : nodupKeysB m = true) (h : (k, v) ∈ m) : lookupFirst m k = some v := by
  induction m with
  | nil => cases h
  | cons q rest ih =>
      obtain ⟨k2, v2⟩ := q
      simp only [nodupKeysB, Bool.and_eq_true, Bool.not_eq_true'] at hnd
      obtain ⟨hnot, hndr⟩ := hnd
      rcases List.mem_cons.mp h with h1 | h2
      · rw [show k = k2 from congrArg Prod.fst h1, show v = v2 from congrArg Prod.snd h1]
        simp [lookupFirst]
      · have hk : ¬(k2 = k) := fun he => not_mem_keys_of_any_false hnot (k, v) h2 he.symm
        simp [lookupFirst, hk]
        exact ih hndr h2

theorem wfVal_of_mem {m : List (String × Val)} {p : String × Val}
    (hw : wfEntries m = true) (h : p ∈ m) : wfVal p.2 = true := by
  induction m with
  | nil => cases h
  | cons q rest ih =>
      obtain ⟨k2, v2⟩ := q
      simp only [wfEntries, Bool.and_eq_true] at hw
      rcases List.mem_cons.mp h with h1 | h2
      · subst h1; exact hw.1
      · exact ih hw.2 h2

theorem mergeList_id (b : List (String × Val)) :
    ∀ (a : List (String × Val)),
      (∀ p ∈ b, ∃ w, lookupFirst a p.1 = some w ∧ mergeVal w p.2 = w) →
      mergeList a b = a := by
  induction b with
  | nil => intro a _; exact mergeList_nil a
  | cons p rest ih =>
      intro a h
      obtain ⟨k, v⟩ := p
      obtain ⟨w, hw1, hw2⟩ := h (k, v) (List.mem_cons_self _ _)
      rw [mergeList_cons]
      rw [mergeStep_absorb a k v w hw1 hw2]
      exact ih a (fun q hq => h q (List.mem_cons_of_mem _ hq))

theorem mergeIdemBundle (n : Nat) :
    (∀ v, sizeOf v < n → wfVal v = true → mergeVal v v = v)
    ∧ (∀ v w, sizeOf v < n → wfVal v = true → mergeVal (mergeVal w v) v = mergeVal w v)
    ∧ (∀ b a, sizeOf b < n → nodupKeysB b = true → wfEntries b = true →
        mergeList (mergeList a b) b = mergeList a b) := by
  induction n using Nat.strong_induction_on with
  | _ n ih =>
    have S : ∀ v, sizeOf v < n → wfVal v = true → mergeVal v v = v := by
      intro v hv hwf
      cases v with
      | vstr s => exact mergeVal_vstr _ s
      | vint i => exact mergeVal_vint _ i
      | vlist l => exact mergeVal_vlist _ l
      | vmap m =>
          simp only [wfVal, Bool.and_eq_true] at hwf
          rw [mergeVal_vmap_vmap]
          congr 1
          refine mergeList_id m m (fun p hp => ⟨p.2, ?_, ?_⟩)
          · exact lookupFirst_of_mem_nodup hwf.1 (by exact hp)
          · have h1 := sizeOf_snd_lt_of_mem hp
            have hlt : sizeOf p.2 < sizeOf (Val.vmap m) := by
              simp only [Val.vmap.sizeOf_spec]
              omega
            exact (ih (sizeOf (Val.vmap m)) hv).1 p.2 hlt (wfVal_of_mem hwf.2 hp)
    have A : ∀ v w, sizeOf v < n → wfVal v = true →
        mergeVal (mergeVal w v) v = mergeVal w v := by
      intro v w hv hwf
      cases v with
      | vstr s => rw [mergeVal_vstr w s]; exact mergeVal_vstr _ s
      | vint i => rw [mergeVal_vint w i]; exact mergeVal_vint _ i
      | vlist l => rw [mergeVal_vlist w l]; exact mergeVal_vlist _ l
      | vmap bm =>
          cases w with
          | vmap am =>
              rw [mergeVal_vmap_vmap, mergeVal_vmap_vmap]
              congr 1
              simp only [wfVal, Bool.and_eq_true] at hwf
              have hlt : sizeOf bm < sizeOf (Val.vmap bm) := by
                simp only [Val.vmap.sizeOf_spec]
                omega
              exact (ih (sizeOf (Val.vmap bm)) hv).2.2 bm am hlt hwf.1 hwf.2
          | vstr s =>
              rw [mergeVal_nonmap_vmap (Val.vstr s) bm rfl]
              exact S (Val.vmap bm) hv hwf
          | vint i =>
              rw [mergeVal_nonmap_vmap (Val.vint i) bm rfl]
              exact S (Val.vmap bm) hv hwf
          | vlist l =>
              rw [mergeVal_nonmap_vmap (Val.vlist l) bm rfl]
              exact S (Val.vmap bm) hv hwf
    have T : ∀ b a, sizeOf b < n → nodupKeysB b = true → wfEntries b = true →
        mergeList (mergeList a b) b = mergeList a b := by
      intro b a hb hnd hwf
      match b with
      | [] => simp [mergeList_nil]
      | (k, v) :: rest =>
          simp only [nodupKeysB, Bool.and_eq_true, Bool.not_eq_true'] at hnd
          obtain ⟨hnot, hndr⟩ := hnd
          simp only [wfEntries, Bool.and_eq_true] at hwf
          obtain ⟨hwv, hwr⟩ := hwf
          have hknotin : ∀ p ∈ rest, p.1 ≠ k := not_mem_keys_of_any_false hnot
          have hvlt : sizeOf v < n := by
            have h2 : sizeOf ((k, v) :: rest) ≥ sizeOf v := by
              simp only [List.cons.sizeOf_spec, Prod.mk.sizeOf_spec]
              omega
            omega
          rw [mergeList_cons, mergeList_cons]
          have hM : lookupFirst (mergeList (mergeStep a k v) rest) k
              = lookupFirst (mergeStep a k v) k :=
            mergeList_lookup_of_not_mem rest (mergeStep a k v) k hknotin
          rw [mergeStep_lookup_same] at hM
          have habs : mergeVal (match lookupFirst a k with
              | some w => mergeVal w v
              | none => v) v
              = (match lookupFirst a k with
                | some w => mergeVal w v
                | none => v) := by
            cases hla : lookupFirst a k with
            | some w => exact A v w hvlt hwv
            | none => exact S v hvlt hwv
          rw [mergeStep_absorb _ k v _ hM habs]
          have hrlt : sizeOf rest < sizeOf ((k, v) :: rest) := by
            simp only [List.cons.sizeOf_spec]
            omega
          exact (ih (sizeOf ((k, v) :: rest)) hb).2.2 rest (mergeStep a k v) hrlt hndr hwr
    exact ⟨S, A, T⟩

theorem mergeVal_self_of_wf (v : Val) (h : wfVal v = true) : mergeVal v v = v :=
  (mergeIdemBundle (sizeOf v + 1)).1 v (Nat.lt_succ_self _) h

theorem mergeList_twice_of_wf (a b : List (String × Val)) (hnd : nodupKeysB b = true)
    (hwf : wfEntries b = true) :
    mergeList (mergeList a b) b = mergeList a b :=
  (mergeIdemBundle (sizeOf b + 1)).2.2 b a (Nat.lt_succ_self _) hnd hwf

/-! ### Lemmas about the exception-propagating fold and the manual merge -/

theorem foldE_nil {α β : Type} (step : α → β → Except String α) (a : α) :
    foldE step a [] = .ok a := rfl

theorem foldE_cons {α β : Type} (step : α → β → Except String α) (a : α) (x : β)
    (rest : List β) :
    foldE step a (x :: rest) =
      match step a x with
      | .ok a2 => foldE step a2 rest
      | .error e => .error e := rfl

theorem foldE_ok_preserve {α β : Type} (step : α → β → Except String α) (P : α → Prop)
    (hstep : ∀ acc it acc2, step acc it = .ok acc2 → P acc → P acc2) :
    ∀ (l : List β) (a r : α), foldE step a l = .ok r → P a → P r := by
  intro l
  induction l with
  | nil =>
      intro a r h hp
      simp only [foldE] at h
      injection h with h2
      rw [← h2]
      exact hp
  | cons x rest ih =>
      intro a r h hp
      simp only [foldE] at h
      cases hs : step a x with
      | ok a2 =>
          rw [hs] at h
          exact ih a2 r h (hstep a x a2 hs hp)
      | error e =>
          rw [hs] at h
          exact Except.noConfusion h

theorem foldE_append {α β : Type} (step : α → β → Except String α) (l1 l2 : List β) :
    ∀ a, foldE step a (l1 ++ l2) =
      match foldE step a l1 with
      | .ok a2 => foldE step a2 l2
      | .error e => .error e := by
  induction l1 with
  | nil => intro a; rfl
  | cons x rest ih =>
      intro a
      simp only [List.cons_append, foldE]
      cases hs : step a x with
      | ok a2 => exact ih a2
      | error e => rfl

theorem manualPairStep_presence (fs : FS) (dir : String) (acc : List (String × Val))
    (gn : String × Val) (acc2 : List (String × Val)) (k : String)
    (h : manualPairStep fs dir acc gn = .ok acc2)
    (hp : (lookupFirst acc k).isSome) : (lookupFirst acc2 k).isSome := by
  simp only [manualPairStep] at h
  by_cases ho : (gn.1 = "override" || strStarts "override " gn.1) = true
  · rw [if_pos ho] at h
    injection h with h2
    rw [← h2]
    exact hp
  · rw [if_neg ho] at h
    cases hgn : gn.2 with
    | vstr n =>
        rw [hgn] at h
        simp only [mergeModuleByGroup] at h
        cases he : existsPath fs (dir ++ "/" ++ gn.1 ++ "/" ++ n ++ ".yaml") with
        | false =>
            simp only [he, Bool.false_eq_true, if_false] at h
            injection h with h2
            rw [← h2]
            exact hp
        | true =>
            simp only [he, if_true] at h
            cases hl : loadYamlVal fs (dir ++ "/" ++ gn.1 ++ "/" ++ n ++ ".yaml") with
            | error e => rw [hl] at h; exact Except.noConfusion h
            | ok mod =>
                rw [hl] at h
                have h2 : Except.ok (ε := String)
                    (mergeList (mergeList acc [(gn.1, mod)]) [(gn.1, mod)]) = .ok acc2 := h
                injection h2 with h3
                rw [← h3]
                exact mergeList_presence _ _ k (mergeList_presence _ _ k hp)
    | vint i => rw [hgn] at h; injection h with h2; rw [← h2]; exact hp
    | vmap m => rw [hgn] at h; injection h with h2; rw [← h2]; exact hp
    | vlist l => rw [hgn] at h; injection h with h2; rw [← h2]; exact hp

theorem manualStep_presence (fs : FS) (dir : String) (base acc : List (String × Val))
    (it : Val) (acc2 : List (String × Val)) (k : String)
    (h : manualStep fs dir base acc it = .ok acc2)
    (hp : (lookupFirst acc k).isSome) : (lookupFirst acc2 k).isSome := by
  cases it with
  | vstr s =>
      simp only [manualStep] at h
      by_cases hs : s = "_self_"
      · rw [if_pos hs] at h
        injection h with h2
        rw [← h2]
        exact mergeList_presence _ _ k hp
      · rw [if_neg hs] at h
        simp only [mergeModuleByName] at h
        cases he : existsPath fs (dir ++ "/" ++ s ++ ".yaml") with
        | false =>
            simp only [he, Bool.false_eq_true, if_false] at h
            injection h with h2
            rw [← h2]
            exact hp
        | true =>
            simp only [he, if_true] at h
            cases hl : loadYamlVal fs (dir ++ "/" ++ s ++ ".yaml") with
            | error e => rw [hl] at h; exact Except.noConfusion h
            | ok mod =>
                rw [hl] at h
                cases mod with
                | vmap mm =>
                    have h2 : Except.ok (ε := String) (mergeList acc mm) = .ok acc2 := h
                    injection h2 with h3
                    rw [← h3]
                    exact mergeList_presence _ _ k hp
                | vstr s2 => exact Except.noConfusion h
                | vint i => exact Except.noConfusion h
                | vlist l => exact Except.noConfusion h
  | vmap m =>
      simp only [manualStep] at h
      exact foldE_ok_preserve (manualPairStep fs dir) (fun a => (lookupFirst a k).isSome)
        (fun a it a2 hs hpa => manualPairStep_presence fs dir a it a2 k hs hpa) m acc acc2 h hp
  | vint i =>
      simp only [manualStep] at h
      injection h with h2
      rw [← h2]
      exact hp
  | vlist l =>
      simp only [manualStep] at h
      injection h with h2
      rw [← h2]
      exact hp

theorem manualStep_base_irrel (fs : FS) (dir : String) (b1 b2 acc : List (String × Val))
    (it : Val) (hit : it ≠ Val.vstr "_self_") :
    manualStep fs dir b1 acc it = manualStep fs dir b2 acc it := by
  cases it with
  | vstr s =>
      have hs : ¬(s = "_self_") := fun he => hit (by rw [he])
      simp [manualStep, hs]
  | vmap m => rfl
  | vint i => rfl
  | vlist l => rfl

theorem foldE_manualStep_base_irrel (fs : FS) (dir : String) (b1 b2 : List (String × Val))
    (dl : List Val) :
    ∀ acc, Val.vstr "_self_" ∉ dl →
      foldE (manualStep fs dir b1) acc dl = foldE (manualStep fs dir b2) acc dl := by
  induction dl with
  | nil => intro acc _; rfl
  | cons it rest ih =>
      intro acc hmem
      simp only [foldE]
      rw [manualStep_base_irrel fs dir b1 b2 acc it
        (fun he => hmem (he ▸ List.mem_cons_self _ _))]
      cases hs : manualStep fs dir b2 acc it with
      | ok a2 => exact ih a2 (fun hm => hmem (List.mem_cons_of_mem _ hm))
      | error e => rfl

/-! ### Lemmas about override cleaning and the dotlist -/

theorem string_data_concat_eq (k v : String) :
    (k ++ "=" ++ v).data = k.data ++ '=' :: v.data := by
  simp [String.data_append]

theorem splitFirstEqL_concat (k v : List Char) (h : charIn '=' k = false) :
    splitFirstEqL (k ++ '=' :: v) = some (k, v) := by
  induction k with
  | nil => simp [splitFirstEqL]
  | cons c rest ih =>
      simp only [charIn, Bool.or_eq_false_iff] at h
      have hc : (c == '=') = false := h.1
      simp only [List.cons_append, splitFirstEqL, hc, Bool.false_eq_true, if_false,
        List.append_eq]
      rw [ih h.2]

theorem splitFirstEq_concat (k v : String) (h : containsChar k '=' = false) :
    splitFirstEq (k ++ "=" ++ v) = (k, v) := by
  unfold splitFirstEq
  rw [string_data_concat_eq, splitFirstEqL_concat k.data v.data h]

theorem charIn_concat_eq (k v : String) : containsChar (k ++ "=" ++ v) '=' = true := by
  unfold containsChar
  rw [string_data_concat_eq]
  induction k.data with
  | nil => simp [charIn]
  | cons c rest ih => simp [charIn, ih]

theorem strStarts_tilde_concat (k v : String) (h : strStarts "~" k = false) :
    strStarts "~" (k ++ "=" ++ v) = false := by
  unfold strStarts at *
  rw [string_data_concat_eq]
  cases hd : k.data with
  | nil =>
      show listStarts ['~'] ([] ++ '=' :: v.data) = false
      simp [listStarts]
  | cons c rest =>
      rw [hd] at h
      simp only [List.cons_append]
      show listStarts ['~'] (c :: (rest ++ '=' :: v.data)) = false
      simp only [listStarts, Bool.and_eq_false_iff] at h ⊢
      rcases h with h1 | h1
      · exact Or.inl h1
      · simp [listStarts] at h1

theorem strStarts_plus_plus_of (k : String) (h : strStarts "+" k = false) :
    strStarts "++" k = false := by
  unfold strStarts at *
  cases hd : k.data with
  | nil =>
      show listStarts ['+', '+'] [] = false
      rfl
  | cons c rest =>
      rw [hd] at h
      show listStarts ['+', '+'] (c :: rest) = false
      have h2 : listStarts ['+'] (c :: rest) = false := h
      simp only [listStarts, Bool.and_eq_false_iff] at h2 ⊢
      rcases h2 with h1 | h1
      · exact Or.inl h1
      · simp [listStarts] at h1

theorem cleanOverrides_append (xs ys : List String) :
    cleanOverrides (xs ++ ys) = cleanOverrides xs ++ cleanOverrides ys := by
  unfold cleanOverrides
  exact List.filterMap_append xs ys _

theorem cleanOverrides_single (k v : String)
    (h1 : strStarts "~" k = false) (h2 : strStarts "+" k = false)
    (h3 : containsChar k '=' = false) :
    cleanOverrides [k ++ "=" ++ v] = [k ++ "=" ++ v] := by
  unfold cleanOverrides
  simp only [List.filterMap]
  rw [strStarts_tilde_concat k v h1]
  simp only [Bool.false_eq_true, if_false]
  rw [charIn_concat_eq k v]
  simp only [Bool.not_true, Bool.false_eq_true, if_false]
  rw [splitFirstEq_concat k v h3]
  simp only []
  rw [strStarts_plus_plus_of k h2, h2]
  simp

theorem splitOnCharL_no_occurrence (c : Char) (l : List Char) (h : charIn c l = false) :
    splitOnCharL c l = [l] := by
  induction l with
  | nil => rfl
  | cons x rest ih =>
      simp only [charIn, Bool.or_eq_false_iff] at h
      simp only [splitOnCharL, h.1, Bool.false_eq_true, if_false]
      rw [ih h.2]

theorem splitDots_single (k : String) (h : containsChar k '.' = false) :
    splitDots k = [k] := by
  unfold splitDots
  rw [splitOnCharL_no_occurrence '.' k.data h]
  simp [List.map]

theorem lookupFirst_setScalar_same (a : List (String × Val)) (k : String) (nv : Val) :
    lookupFirst (setScalar a k nv) k = some nv := by
  unfold setScalar
  cases h : lookupFirst a k with
  | none =>
      rw [lookupFirst_append, h]
      simp [lookupFirst]
  | some w =>
      rw [lookupFirst_replaceFirst_same, h]

theorem any_key_replaceFirst (a : List (String × Val)) (k : String) (nv : Val) (x : String) :
    ((replaceFirst a k nv).any fun p => p.1 = x) = (a.any fun p => p.1 = x) := by
  induction a with
  | nil => rfl
  | cons p rest ih =>
      obtain ⟨k2, w⟩ := p
      by_cases h : k2 = k
      · simp [replaceFirst, h]
      · simp [replaceFirst, h, ih]

theorem nodupKeysB_replaceFirst (a : List (String × Val)) (k : String) (nv : Val) :
    nodupKeysB (replaceFirst a k nv) = nodupKeysB a := by
  induction a with
  | nil => rfl
  | cons p rest ih =>
      obtain ⟨k2, w⟩ := p
      by_cases h : k2 = k
      · simp [replaceFirst, h, nodupKeysB]
      · simp [replaceFirst, h, nodupKeysB, any_key_replaceFirst, ih]

theorem nodupKeysB_append_single (a : List (String × Val)) (k : String) (nv : Val)
    (hnd : nodupKeysB a = true) (hl : lookupFirst a k = none) :
    nodupKeysB (a ++ [(k, nv)]) = true := by
  induction a with
  | nil => simp [nodupKeysB]
  | cons p rest ih =>
      obtain ⟨k2, w⟩ := p
      simp only [lookupFirst] at hl
      by_cases h : k2 = k
      · rw [if_pos h] at hl
        exact Option.noConfusion hl
      · rw [if_neg h] at hl
        simp only [nodupKeysB, Bool.and_eq_true, Bool.not_eq_true'] at hnd
        simp only [List.cons_append, nodupKeysB, Bool.and_eq_true, Bool.not_eq_true']
        refine ⟨?_, ih hnd.2 hl⟩
        have hk : ¬(k = k2) := fun hh => h hh.symm
        simp [List.any_append, hnd.1, hk]

theorem nodupKeysB_setScalar (a : List (String × Val)) (k : String) (nv : Val)
    (hnd : nodupKeysB a = true) : nodupKeysB (setScalar a k nv) = true := by
  unfold setScalar
  cases h : lookupFirst a k with
  | none => exact nodupKeysB_append_single a k nv hnd h
  | some w => rw [nodupKeysB_replaceFirst]; exact hnd

theorem nodupKeysB_dotSet (a : List (String × Val)) (segs : List String) (v : String)
    (hnd : nodupKeysB a = true) : nodupKeysB (dotSet a segs v) = true := by
  match segs with
  | [] => exact hnd
  | [s] =>
      simp only [dotSet]
      cases h : lookupFirst a s with
      | none => exact nodupKeysB_append_single a s _ hnd h
      | some w => rw [nodupKeysB_replaceFirst]; exact hnd
  | s :: s2 :: rest =>
      simp only [dotSet]
      cases h : lookupFirst a s with
      | none => exact nodupKeysB_append_single a s _ hnd h
      | some w =>
          cases w with
          | vmap sub => rw [nodupKeysB_replaceFirst]; exact hnd
          | vstr t => exact nodupKeysB_setScalar a s _ hnd
          | vint i => exact nodupKeysB_setScalar a s _ hnd
          | vlist l => exact nodupKeysB_setScalar a s _ hnd

theorem nodupKeysB_fromDotlist (entries : List String) :
    nodupKeysB (fromDotlist entries) = true := by
  unfold fromDotlist
  suffices hgen : ∀ a, nodupKeysB a = true →
      nodupKeysB (entries.foldl (fun acc e =>
        dotSet acc (splitDots (splitFirstEq e).1) (splitFirstEq e).2) a) = true by
    exact hgen [] rfl
  induction entries with
  | nil => intro a ha; exact ha
  | cons e rest ih =>
      intro a ha
      exact ih _ (nodupKeysB_dotSet a _ _ ha)

theorem isMapB_scalarVal (v : String) : isMapB (scalarVal v) = false := by
  unfold scalarVal
  cases strToIntQ v <;> rfl

theorem not_mem_of_charIn_false (c : Char) (l : List Char) (h : charIn c l = false) :
    ¬ c ∈ l := by
  induction l with
  | nil => intro hm; cases hm
  | cons x rest ih =>
      simp only [charIn, Bool.or_eq_false_iff] at h
      intro hm
      rcases List.mem_cons.mp hm with h1 | h1
      · have h2 := h.1
        rw [h1] at h2
        simp at h2
      · exact ih h.2 h1

/-- On a plainly scalar value the model's YAML parse is the scalar parse. -/
theorem yamlValue_plain (v : String) (h : plainScalarLike v = true) :
    yamlValue v = scalarVal v := by
  simp only [plainScalarLike, Bool.and_eq_true, Bool.not_eq_true'] at h
  have hbrace : ¬ '\x7b' ∈ v.data := not_mem_of_charIn_false _ _ h.1.1.1.1.1.1
  have hbrack : ¬ '[' ∈ v.data := not_mem_of_charIn_false _ _ h.1.1.1.1.1.2
  have hcond : (((v.data.dropWhile flowSp).headD ' ' == '\x7b')
      || ((v.data.dropWhile flowSp).headD ' ' == '[')) = false := by
    cases ht : v.data.dropWhile flowSp with
    | nil => rfl
    | cons c rest =>
        have hcm : c ∈ v.data := by
          refine (List.dropWhile_sublist flowSp).mem ?_
          rw [ht]
          exact List.mem_cons_self _ _
        have h1 : ¬(c = '\x7b') := fun he => hbrace (he ▸ hcm)
        have h2 : ¬(c = '[') := fun he => hbrack (he ▸ hcm)
        simp only [List.headD_cons]
        simp [h1, h2]
  simp only [yamlValue]
  rw [hcond]
  rw [if_neg Bool.false_ne_true]

theorem isMapB_yamlValue_plain (v : String) (h : plainScalarLike v = true) :
    isMapB (yamlValue v) = false := by
  rw [yamlValue_plain v h]
  exact isMapB_scalarVal v

theorem dotSet_single_lookup (a : List (String × Val)) (k v : String)
    (hnm : isMapB (yamlValue v) = false) :
    lookupFirst (dotSet a [k] v) k = some (yamlValue v) := by
  simp only [dotSet]
  cases h : lookupFirst a k with
  | none =>
      rw [lookupFirst_append, h]
      simp [lookupFirst]
  | some w =>
      rw [lookupFirst_replaceFirst_same, h, mergeVal_nonmap w _ hnm]

theorem fromDotlist_last_assign (xs : List String) (k v : String)
    (hdot : containsChar k '.' = false) (heq : containsChar k '=' = false)
    (hnm : isMapB (yamlValue v) = false) :
    lookupFirst (fromDotlist (xs ++ [k ++ "=" ++ v])) k = some (yamlValue v) := by
  unfold fromDotlist
  rw [List.foldl_append]
  simp only [List.foldl]
  rw [splitFirstEq_concat k v heq, splitDots_single k hdot]
  exact dotSet_single_lookup _ k v hnm

theorem manualStep_self (fs : FS) (dir : String) (base acc : List (String × Val)) :
    manualStep fs dir base acc (Val.vstr "_self_") = .ok (mergeList acc base) := by
  simp [manualStep]

/-! ### Claim C1 -/

/-- C1 (amended): in the manual fallback, a `"_self_"` defaults entry merges
the *entire* loaded root mapping — including its `defaults` key — into the
accumulator; consequently every top-level key of the root document (the
`defaults` key included) is present in the merged result whenever the merge
succeeds. -/
theorem c1_self_merge_includes_defaults_key
    (fs : FS) (dir mp : String) (ovs : List String)
    (base m : List (String × Val)) (dl : List Val) (kk : String)
    (hload : loadAsDict fs mp = .ok base)
    (hdl : defaultsItemsE base = .ok dl)
    (hself : Val.vstr "_self_" ∈ dl)
    (hok : mergeManualCore fs dir mp ovs = .ok m)
    (hkk : (lookupFirst base kk).isSome = true) :
    (lookupFirst m kk).isSome = true := by
  have hfb : mergeManualFromBase fs dir base ovs = .ok m := by
    unfold mergeManualCore at hok
    rw [hload] at hok
    exact hok
  unfold mergeManualFromBase at hfb
  rw [hdl] at hfb
  have hfin : manualFinish fs dir base dl ovs = .ok m := hfb
  unfold manualFinish at hfin
  cases hacc : foldE (manualStep fs dir base) [] dl with
  | error e => rw [hacc] at hfin; exact Except.noConfusion hfin
  | ok acc0 =>
      rw [hacc] at hfin
      have hp0 : (lookupFirst acc0 kk).isSome = true := by
        obtain ⟨l1, l2, hsplit⟩ := List.append_of_mem hself
        rw [hsplit, foldE_append] at hacc
        cases h1 : foldE (manualStep fs dir base) [] l1 with
        | error e => rw [h1] at hacc; exact Except.noConfusion hacc
        | ok a1 =>
            rw [h1] at hacc
            have hacc3 : foldE (manualStep fs dir base) a1 (Val.vstr "_self_" :: l2)
                = .ok acc0 := hacc
            rw [foldE_cons, manualStep_self] at hacc3
            have hacc4 : foldE (manualStep fs dir base) (mergeList a1 base) l2
                = .ok acc0 := hacc3
            have hp1 : (lookupFirst (mergeList a1 base) kk).isSome :=
              mergeList_key_present base a1 kk hkk
            exact foldE_ok_preserve (manualStep fs dir base)
              (fun a => (lookupFirst a kk).isSome = true)
              (fun a it a2 hs hp => manualStep_presence fs dir base a it a2 kk hs hp)
              l2 (mergeList a1 base) acc0 hacc4 hp1
      have hie : dl.isEmpty = false := by
        cases dl with
        | nil => cases hself
        | cons a b => rfl
      rw [hie] at hfin
      simp only [Bool.false_eq_true, if_false] at hfin
      injection hfin with hm
      rw [← hm]
      cases hco : (cleanOverrides ovs).isEmpty with
      | true => simp only [hco, if_true]; exact hp0
      | false =>
          simp only [hco, Bool.false_eq_true, if_false]
          exact mergeList_presence _ _ kk hp0

/-- The concrete store refuting C1 as stated: the root document declares
`defaults: [_self_]` and one further key `y`. -/
def fsC1 : FS :=
  ⟨[("cfg/config.yaml",
      .yaml (.vmap [("defaults", .vlist [.vstr "_self_"]), ("y", .vint 1)]))], []⟩

/-- C1 counterexample: after the `"_self_"` merge the manual fallback result
*does* contain the root's `defaults` key (the claim says it must not), both
structurally and in the rendered text. -/
theorem c1_original_claim_false :
    mergeManualCore fsC1 "cfg" "cfg/config.yaml" []
      = .ok [("defaults", .vlist [.vstr "_self_"]), ("y", .vint 1)]
    ∧ lookupFirst [("defaults", Val.vlist [Val.vstr "_self_"]), ("y", Val.vint 1)] "defaults"
      = some (.vlist [.vstr "_self_"])
    ∧ mergeManualStr fsC1 "cfg" (some "cfg/config.yaml") []
      = "defaults:\n- _self_\ny: 1\n" := by
  refine ⟨by decide, by decide, by decide⟩

/-- C1 witness: the amended theorem applied to the concrete store. -/
theorem c1_witness :
    (lookupFirst [("defaults", Val.vlist [Val.vstr "_self_"]), ("y", Val.vint 1)] "y").isSome
      = true :=
  c1_self_merge_includes_defaults_key fsC1 "cfg" "cfg/config.yaml" []
    [("defaults", .vlist [.vstr "_self_"]), ("y", .vint 1)]
    [("defaults", .vlist [.vstr "_self_"]), ("y", .vint 1)]
    [.vstr "_self_"] "y" (by decide) (by decide) (by decide) (by decide) (by decide)

/-! ### Claim C2 -/

/-- C2 (amended): when the defaults list is non-empty and contains no
`"_self_"` entry, the root document's own keys are never merged at all in the
manual fallback — the result is completely independent of the root's
non-`defaults` content (rather than that content being merged last, as
claimed). -/
theorem c2_root_keys_not_merged
    (fs : FS) (dir : String) (b1 b2 : List (String × Val)) (dl : List Val)
    (ovs : List String)
    (h1 : lookupFirst b1 "defaults" = some (.vlist dl))
    (h2 : lookupFirst b2 "defaults" = some (.vlist dl))
    (hne : dl ≠ [])
    (hself : Val.vstr "_self_" ∉ dl) :
    mergeManualFromBase fs dir b1 ovs = mergeManualFromBase fs dir b2 ovs := by
  have htr : truthy (Val.vlist dl) = true := by
    cases dl with
    | nil => exact absurd rfl hne
    | cons a b => rfl
  have hd1 : defaultsItemsE b1 = .ok dl := by simp [defaultsItemsE, h1, htr]
  have hd2 : defaultsItemsE b2 = .ok dl := by simp [defaultsItemsE, h2, htr]
  have hie : dl.isEmpty = false := by
    cases dl with
    | nil => exact absurd rfl hne
    | cons a b => rfl
  unfold mergeManualFromBase
  rw [hd1, hd2]
  show manualFinish fs dir b1 dl ovs = manualFinish fs dir b2 dl ovs
  unfold manualFinish
  rw [foldE_manualStep_base_irrel fs dir b1 b2 dl [] hself]
  cases hacc : foldE (manualStep fs dir b2) [] dl with
  | error e => rfl
  | ok acc0 => simp only [hie, Bool.false_eq_true, if_false]

/-- The concrete store refuting C2 as stated: the root document declares
`defaults: [{db: mysql}]` (no `_self_`) plus its own key `y`. -/
def fsC2 : FS :=
  ⟨[("cfg/config.yaml",
      .yaml (.vmap [("defaults", .vlist [.vmap [("db", .vstr "mysql")]]), ("y", .vint 1)])),
    ("cfg/db/mysql.yaml", .yaml (.vmap [("a", .vint 2)]))], []⟩

/-- C2 counterexample: with a non-empty defaults list lacking `_self_`, the
root's own key `y` does not appear in the merged result at all — it is not
"merged last" as the claim states. -/
theorem c2_original_claim_false :
    mergeManualCore fsC2 "cfg" "cfg/config.yaml" []
      = .ok [("db", .vmap [("a", .vint 2)])]
    ∧ lookupFirst [("db", Val.vmap [("a", Val.vint 2)])] "y" = none := by
  refine ⟨by decide, by decide⟩

/-- C2 witness: the amended theorem applied to two concrete root documents
sharing the defaults list but with different own keys. -/
theorem c2_witness :
    mergeManualFromBase fsC2 "cfg"
        [("defaults", .vlist [.vmap [("db", .vstr "mysql")]]), ("y", .vint 1)] []
      = mergeManualFromBase fsC2 "cfg"
        [("defaults", .vlist [.vmap [("db", .vstr "mysql")]]), ("z", .vstr "other")] [] :=
  c2_root_keys_not_merged fsC2 "cfg"
    [("defaults", .vlist [.vmap [("db", .vstr "mysql")]]), ("y", .vint 1)]
    [("defaults", .vlist [.vmap [("db", .vstr "mysql")]]), ("z", .vstr "other")]
    [.vmap [("db", .vstr "mysql")]] [] (by decide) (by decide) (by decide) (by decide)

/-! ### Claim C3 -/

/-- C3 (amended): in the manual fallback, the cleaned overrides are
YAML-parsed (`yaml.unsafe_load` inside `OmegaConf.from_dotlist`) and
deep-merged over the accumulator last.  For an override assignment `k=v`
whose key is plain (no `~`/`+` prefix, no dot, no `=` inside) and whose value
is plainly scalar, the parsed value is a non-mapping, so the final deep merge
replaces whatever the defaults contributed and the merged result's value at
`k` is exactly the parsed override value.  (For mapping-valued overrides the
final merge instead combines the override with the accumulator's mapping —
see the counterexample.) -/
theorem c3_scalar_override_wins
    (fs : FS) (dir mp : String) (ovs0 : List String) (k v : String)
    (m : List (String × Val))
    (h1 : strStarts "~" k = false) (h2 : strStarts "+" k = false)
    (h3 : containsChar k '=' = false) (h4 : containsChar k '.' = false)
    (hv : plainScalarLike v = true)
    (hok : mergeManualCore fs dir mp (ovs0 ++ [k ++ "=" ++ v]) = .ok m) :
    lookupFirst m k = some (yamlValue v) ∧ isMapB (yamlValue v) = false := by
  have hnm : isMapB (yamlValue v) = false := isMapB_yamlValue_plain v hv
  refine ⟨?_, hnm⟩
  unfold mergeManualCore at hok
  cases hload : loadAsDict fs mp with
  | error e => rw [hload] at hok; exact Except.noConfusion hok
  | ok base =>
      rw [hload] at hok
      have hfb : mergeManualFromBase fs dir base (ovs0 ++ [k ++ "=" ++ v]) = .ok m := hok
      unfold mergeManualFromBase at hfb
      cases hdl : defaultsItemsE base with
      | error e => rw [hdl] at hfb; exact Except.noConfusion hfb
      | ok dl =>
          rw [hdl] at hfb
          have hfin : manualFinish fs dir base dl (ovs0 ++ [k ++ "=" ++ v]) = .ok m := hfb
          unfold manualFinish at hfin
          cases hacc : foldE (manualStep fs dir base) [] dl with
          | error e => rw [hacc] at hfin; exact Except.noConfusion hfin
          | ok acc0 =>
              rw [hacc] at hfin
              have hco : cleanOverrides (ovs0 ++ [k ++ "=" ++ v])
                  = cleanOverrides ovs0 ++ [k ++ "=" ++ v] := by
                rw [cleanOverrides_append, cleanOverrides_single k v h1 h2 h3]
              have hcoe : (cleanOverrides ovs0 ++ [k ++ "=" ++ v]).isEmpty = false := by
                cases cleanOverrides ovs0 <;> rfl
              simp only [hco, hcoe, Bool.false_eq_true, if_false, Except.ok.injEq] at hfin
              rw [← hfin]
              exact mergeList_last_scalar _ _ k _ (nodupKeysB_fromDotlist _)
                (fromDotlist_last_assign (cleanOverrides ovs0) k v h4 h3 hnm) hnm

/-- The concrete store for the C3 witness: two defaults modules both set
`x`, and the explicit override `x=5` still wins. -/
def fsC3 : FS :=
  ⟨[("cfg/config.yaml", .yaml (.vmap [("defaults", .vlist [.vstr "a", .vstr "b"])])),
    ("cfg/a.yaml", .yaml (.vmap [("x", .vint 1)])),
    ("cfg/b.yaml", .yaml (.vmap [("x", .vint 2)]))], []⟩

/-- C3 witness: the theorem applied to the concrete store. -/
theorem c3_witness :
    lookupFirst [("x", Val.vint 5)] "x" = some (yamlValue "5")
    ∧ isMapB (yamlValue "5") = false :=
  c3_scalar_override_wins fsC3 "cfg" "cfg/config.yaml" [] "x" "5"
    [("x", .vint 5)] (by decide) (by decide) (by decide) (by decide) (by decide)
    (by decide)

/-- The concrete store for the C3 counterexample: the root itself gives `x`
a mapping value, merged via `_self_`. -/
def fsC3m : FS :=
  ⟨[("cfg/config.yaml", .yaml (.vmap [("defaults", .vlist [.vstr "_self_"]),
      ("x", .vmap [("b", .vint 2)])]))], []⟩

/-- C3 counterexample: a mapping-valued override `x={a: 1}` is YAML-parsed by
`from_dotlist` into a mapping and then deep-merged over the accumulator, so
the base's `x.b` survives underneath it — the merged result's value at `x`
is NOT the override's value, refuting the unconditional claim. -/
theorem c3_original_claim_false :
    yamlValue "{a: 1}" = .vmap [("a", .vint 1)]
    ∧ mergeManualCore fsC3m "cfg" "cfg/config.yaml" ["x={a: 1}"]
        = .ok [("defaults", .vlist [.vstr "_self_"]),
               ("x", .vmap [("b", .vint 2), ("a", .vint 1)])]
    ∧ Val.vmap [("b", .vint 2), ("a", .vint 1)] ≠ yamlValue "{a: 1}" := by
  decide

/-! ### Claim C10 -/

/-- C10: `_merge_module_by_group` loads the module file and deep-merges it
under its group key twice in succession; because re-merging the same
well-formed fragment (YAML-loaded mappings have pairwise-distinct keys) over
a state that has already absorbed it is idempotent, the double merge equals
a single merge of that fragment. -/
theorem c10_double_group_merge_idempotent
    (fs : FS) (dir : String) (acc : List (String × Val)) (g n : String) (mod : Val)
    (hld : loadYamlVal fs (dir ++ "/" ++ g ++ "/" ++ n ++ ".yaml") = .ok mod)
    (hwf : wfVal mod = true) :
    mergeModuleByGroup fs dir acc g n = .ok (mergeList acc [(g, mod)]) := by
  have hex : existsPath fs (dir ++ "/" ++ g ++ "/" ++ n ++ ".yaml") = true := by
    unfold loadYamlVal at hld
    cases hf : lookupFile fs (dir ++ "/" ++ g ++ "/" ++ n ++ ".yaml") with
    | none => rw [hf] at hld; exact Except.noConfusion hld
    | some fd =>
        unfold existsPath fileExists
        rw [hf]
        rfl
  simp only [mergeModuleByGroup, hex, if_true, hld]
  rw [mergeList_twice_of_wf acc [(g, mod)] rfl (by simp [wfEntries, hwf])]

/-- The concrete store for the C10 witness. -/
def fsC10 : FS :=
  ⟨[("cfg/db/mysql.yaml", .yaml (.vmap [("a", .vint 2)]))], []⟩

/-- C10 witness: the theorem applied to the concrete store. -/
theorem c10_witness :
    mergeModuleByGroup fsC10 "cfg" [] "db" "mysql"
      = .ok (mergeList [] [("db", Val.vmap [("a", Val.vint 2)])]) :=
  c10_double_group_merge_idempotent fsC10 "cfg" [] "db" "mysql"
    (.vmap [("a", .vint 2)]) (by decide) (by decide)

/-! ### Claim C6 -/

/-- C6: an `override`-prefixed mapping entry is appended by the Module
Resolver as an ordinary group/name module, while the manual fallback merge
skips the same entry entirely (the accumulator is returned unchanged). -/
theorem c6_override_entries_divergent_treatment
    (fs : FS) (dir g n : String) (ms : List ConfigModule)
    (base acc : List (String × Val))
    (hov : g = "override" ∨ strStarts "override " g = true) :
    parseStep fs dir ms (.vmap [(g, .vstr n)]) = ms ++ [addModule fs dir g n]
    ∧ manualStep fs dir base acc (.vmap [(g, .vstr n)]) = .ok acc := by
  have hcond : (g = "override" || strStarts "override " g) = true := by
    rcases hov with h | h
    · simp [h]
    · simp [h]
  constructor
  · simp [parseStep, List.filterMap]
  · show foldE (manualPairStep fs dir) acc [(g, .vstr n)] = .ok acc
    rw [foldE_cons]
    have hps : manualPairStep fs dir acc (g, .vstr n) = .ok acc := by
      unfold manualPairStep
      simp [hcond]
    rw [hps]
    rfl

/-- C6 witness: the theorem applied at the entry `{override db: postgres}`
on an empty store. -/
theorem c6_witness :
    parseStep ⟨[], []⟩ "cfg" [] (.vmap [("override db", .vstr "postgres")])
        = [] ++ [addModule ⟨[], []⟩ "cfg" "override db" "postgres"]
    ∧ manualStep ⟨[], []⟩ "cfg" [] [] (.vmap [("override db", .vstr "postgres")]) = .ok [] :=
  c6_override_entries_divergent_treatment ⟨[], []⟩ "cfg" "override db" "postgres" [] [] []
    (Or.inr (by decide))

/-! ### Claim C5 -/

theorem addModule_inv (fs : FS) (dir g n : String) :
    (addModule fs dir g n).resolved = (addModule fs dir g n).path.isSome := by
  unfold addModule
  cases hr : existsPath fs (dir ++ "/" ++ g ++ "/" ++ n ++ ".yaml") <;> simp [hr]

theorem parseStep_mem (fs : FS) (dir : String) (ms : List ConfigModule) (it : Val)
    (md : ConfigModule) (h : md ∈ parseStep fs dir ms it) :
    md ∈ ms ∨ md.resolved = md.path.isSome := by
  cases it with
  | vstr s =>
      simp only [parseStep] at h
      by_cases hs : s = "_self_"
      · rw [if_pos hs] at h
        exact Or.inl h
      · rw [if_neg hs] at h
        by_cases hc : containsChar s '/' = true
        · rw [if_pos hc] at h
          rcases List.mem_append.mp h with h1 | h1
          · exact Or.inl h1
          · have h2 := List.mem_singleton.mp h1
            rw [h2]
            exact Or.inr (addModule_inv fs dir _ _)
        · rw [if_neg hc] at h
          by_cases he : existsPath fs (dir ++ "/" ++ s ++ ".yaml") = true
          · rw [if_pos he] at h
            rcases List.mem_append.mp h with h1 | h1
            · exact Or.inl h1
            · have h2 := List.mem_singleton.mp h1
              rw [h2]
              exact Or.inr rfl
          · rw [if_neg he] at h
            exact Or.inl h
  | vmap m =>
      simp only [parseStep] at h
      rcases List.mem_append.mp h with h1 | h1
      · exact Or.inl h1
      · obtain ⟨gn, hgn, hf⟩ := List.mem_filterMap.mp h1
        cases hv : gn.2 with
        | vstr nn =>
            rw [hv] at hf
            have h2 := Option.some.inj hf
            rw [← h2]
            exact Or.inr (addModule_inv fs dir _ _)
        | vint i => rw [hv] at hf; exact Option.noConfusion hf
        | vmap mm => rw [hv] at hf; exact Option.noConfusion hf
        | vlist l => rw [hv] at hf; exact Option.noConfusion hf
  | vint i => exact Or.inl h
  | vlist l => exact Or.inl h

theorem parse_fold_inv (fs : FS) (dir : String) :
    ∀ (dl : List Val) (ms : List ConfigModule),
      (∀ md ∈ ms, md.resolved = md.path.isSome) →
      ∀ md ∈ dl.foldl (parseStep fs dir) ms, md.resolved = md.path.isSome := by
  intro dl
  induction dl with
  | nil => intro ms hms md hmd; exact hms md hmd
  | cons it rest ih =>
      intro ms hms md hmd
      rw [List.foldl_cons] at hmd
      refine ih (parseStep fs dir ms it) ?_ md hmd
      intro md2 hmd2
      rcases parseStep_mem fs dir ms it md2 hmd2 with h1 | h1
      · exact hms md2 h1
      · exact h1

/-- C5: for every group/name defaults entry, `_add_module` resolves exactly
`<root>/<group>/<name>.yaml` and sets `resolved` iff that path exists; and
every module returned by `parse` satisfies `resolved == (path is not null)`. -/
theorem c5_resolution_invariant (fs : FS) (dir : String) (mainOpt : Option String)
    (g n : String) :
    (addModule fs dir g n).resolved = existsPath fs (dir ++ "/" ++ g ++ "/" ++ n ++ ".yaml")
    ∧ ∀ md ∈ parseDefaults fs dir mainOpt, md.resolved = md.path.isSome := by
  constructor
  · rfl
  · intro md hmd
    cases mainOpt with
    | none => exact absurd hmd (List.not_mem_nil md)
    | some mp =>
        have hmd2 : md ∈ parseFromFile fs dir (lookupFile fs mp) := hmd
        cases hlf : lookupFile fs mp with
        | none => rw [hlf] at hmd2; exact absurd hmd2 (List.not_mem_nil md)
        | some fd =>
            rw [hlf] at hmd2
            cases fd with
            | yaml v =>
                cases v with
                | vmap base =>
                    simp only [parseFromFile] at hmd2
                    cases hdl : defaultsItemsE base with
                    | error e => rw [hdl] at hmd2; exact absurd hmd2 (List.not_mem_nil md)
                    | ok dl =>
                        rw [hdl] at hmd2
                        exact parse_fold_inv fs dir dl []
                          (fun _ hm => absurd hm (List.not_mem_nil _)) md hmd2
                | vstr s => exact absurd hmd2 (List.not_mem_nil md)
                | vint i => exact absurd hmd2 (List.not_mem_nil md)
                | vlist l => exact absurd hmd2 (List.not_mem_nil md)
            | raw t => exact absurd hmd2 (List.not_mem_nil md)
            | meta mm => exact absurd hmd2 (List.not_mem_nil md)

/-- The concrete store for the C5 witness. -/
def fsC5 : FS :=
  ⟨[("cfg/config.yaml",
      .yaml (.vmap [("defaults", .vlist [.vmap [("db", .vstr "mysql")], .vstr "miss/ing"])])),
    ("cfg/db/mysql.yaml", .yaml (.vmap [("a", .vint 2)]))], []⟩

/-- C5 witness: the theorem applied to a concrete parse result containing
one resolved and one unresolved module. -/
theorem c5_witness :
    (⟨"miss", "ing", none, false, false⟩ : ConfigModule).resolved
      = (⟨"miss", "ing", none, false, false⟩ : ConfigModule).path.isSome :=
  (c5_resolution_invariant fsC5 "cfg" (some "cfg/config.yaml") "db" "mysql").2
    ⟨"miss", "ing", none, false, false⟩ (by decide)

/-! ### Claim C4 -/

/-- The shapes of defaults entries for which "one entry, one module" holds:
the `_self_` marker, a group/name string, or a singleton `{group: name}`
mapping with a string-valued selection. -/
def validEntry (it : Val) : Prop :=
  it = Val.vstr "_self_"
  ∨ (∃ s, it = Val.vstr s ∧ containsChar s '/' = true)
  ∨ (∃ g nn, it = Val.vmap [(g, Val.vstr nn)])

/-- The spec-side projection of a defaults entry to its (group, name) pair,
with `_self_` removed (declaration order is the list order). -/
def entryGN : Val → Option (String × String)
  | .vstr s => if s = "_self_" then none else some (rsplitSlash s)
  | .vmap [(g, .vstr nn)] => some (g, nn)
  | _ => none

theorem parse_fold_order (fs : FS) (dir : String) :
    ∀ (l : List Val) (ms : List ConfigModule), (∀ it ∈ l, validEntry it) →
      (l.foldl (parseStep fs dir) ms).map (fun md => (md.group, md.name))
        = ms.map (fun md => (md.group, md.name)) ++ l.filterMap entryGN := by
  intro l
  induction l with
  | nil => intro ms _; simp
  | cons it rest ih =>
      intro ms hv
      have hrest : ∀ it2 ∈ rest, validEntry it2 :=
        fun it2 h2 => hv it2 (List.mem_cons_of_mem _ h2)
      rcases hv it (List.mem_cons_self _ _) with h | h | h
      · subst h
        have hstep : parseStep fs dir ms (Val.vstr "_self_") = ms := by
          simp [parseStep]
        rw [List.foldl_cons, hstep, ih ms hrest]
        simp [entryGN]
      · obtain ⟨s, hit, hslash⟩ := h
        subst hit
        have hns : ¬(s = "_self_") := by
          intro he
          rw [he] at hslash
          exact absurd hslash (by decide)
        have hstep : parseStep fs dir ms (Val.vstr s)
            = ms ++ [addModule fs dir (rsplitSlash s).1 (rsplitSlash s).2] := by
          simp [parseStep, hns, hslash]
        rw [List.foldl_cons, hstep, ih _ hrest]
        simp [entryGN, hns, addModule, List.map_append]
      · obtain ⟨g, nn, hit⟩ := h
        subst hit
        have hstep : parseStep fs dir ms (Val.vmap [(g, Val.vstr nn)])
            = ms ++ [addModule fs dir g nn] := by
          simp [parseStep, List.filterMap]
        rw [List.foldl_cons, hstep, ih _ hrest]
        simp [entryGN, addModule, List.map_append]

/-- C4 (amended): when every defaults entry is a `_self_` marker, a
slash-containing string, or a singleton string-valued mapping, the returned
module list is exactly the defaults list's declaration order with `_self_`
entries removed (projected to (group, name)).  Entries outside these shapes
— e.g. a bare unresolvable string — are additionally dropped, which refutes
the unconditional claim. -/
theorem c4_parse_order_preservation (fs : FS) (dir mp : String)
    (base : List (String × Val)) (dl : List Val)
    (hmain : lookupFile fs mp = some (.yaml (.vmap base)))
    (hdl : lookupFirst base "defaults" = some (.vlist dl))
    (hval : ∀ it ∈ dl, validEntry it) :
    (parseDefaults fs dir (some mp)).map (fun md => (md.group, md.name))
      = dl.filterMap entryGN := by
  have hditems : defaultsItemsE base = .ok dl := by
    unfold defaultsItemsE
    rw [hdl]
    cases dl with
    | nil => rfl
    | cons a b => rfl
  show (parseFromFile fs dir (lookupFile fs mp)).map (fun md => (md.group, md.name))
      = dl.filterMap entryGN
  rw [hmain]
  simp only [parseFromFile]
  rw [hditems]
  have := parse_fold_order fs dir dl [] hval
  simp only [List.map_nil, List.nil_append] at this
  exact this

/-- The concrete store refuting C4 as stated: a bare string entry that does
not resolve to a root-level file is silently dropped from the module list. -/
def fsC4 : FS :=
  ⟨[("cfg/config.yaml", .yaml (.vmap [("defaults", .vlist [.vstr "nope"])]))], []⟩

/-- C4 counterexample: the defaults list has one non-`_self_` entry, yet
`parse` returns no module at all, so the returned list cannot equal the
declaration order with `_self_` removed. -/
theorem c4_original_claim_false :
    parseDefaults fsC4 "cfg" (findMainConfig fsC4 "cfg") = []
    ∧ defaultsItemsE [("defaults", Val.vlist [Val.vstr "nope"])] = .ok [Val.vstr "nope"]
    ∧ (([Val.vstr "nope"] : List Val).filter (fun it => !(it == Val.vstr "_self_"))).length
        ≠ (parseDefaults fsC4 "cfg" (findMainConfig fsC4 "cfg")).length := by
  refine ⟨by decide, by decide, by decide⟩

/-- The concrete store for the C4 witness. -/
def fsC4w : FS :=
  ⟨[("cfg/config.yaml",
      .yaml (.vmap [("defaults",
        .vlist [.vstr "_self_", .vstr "db/mysql", .vmap [("model", .vstr "resnet")]])]))], []⟩

/-- C4 witness: the amended theorem applied to a concrete defaults list. -/
theorem c4_witness :
    (parseDefaults fsC4w "cfg" (some "cfg/config.yaml")).map (fun md => (md.group, md.name))
      = [("db", "mysql"), ("model", "resnet")] := by
  have h := c4_parse_order_preservation fsC4w "cfg" "cfg/config.yaml"
    [("defaults", .vlist [.vstr "_self_", .vstr "db/mysql", .vmap [("model", .vstr "resnet")]])]
    [.vstr "_self_", .vstr "db/mysql", .vmap [("model", .vstr "resnet")]]
    (by decide) (by decide) ?hval
  · rw [h]
    decide
  · intro it hit
    rcases List.mem_cons.mp hit with h1 | hit2
    · exact Or.inl h1
    rcases List.mem_cons.mp hit2 with h2 | hit3
    · exact Or.inr (Or.inl ⟨"db/mysql", h2, by decide⟩)
    rcases List.mem_cons.mp hit3 with h3 | hit4
    · exact Or.inr (Or.inr ⟨"model", "resnet", h3⟩)
    · exact absurd hit4 (List.not_mem_nil it)

/-! ### Claim C7 -/

/-- C7: the Merge Engine's `merge` is a total, string-valued function, and
each failure mode degrades to commented text: no discoverable root document
yields the error comment; a composition failure of the primary strategy
recovers into the manual fallback behind a `# ⚠` warning line; an
interpolation-resolution failure within the primary strategy degrades to raw
text behind a `# ⚠` warning comment; and an internal failure of the manual
fallback yields `# Error` commented text. -/
theorem c7_merge_error_handling {σ : Type} (h : HydraOracle σ) (fs : FS) (dir : String)
    (pref : Option String) (ovs : List String) :
    (findMainConfigM fs dir pref = none →
      mergeConfig h fs dir pref ovs = "# Error: No config.yaml found")
    ∧ (∀ mp e, findMainConfigM fs dir pref = some mp →
        h.compose (stemOf mp) ovs = .error e →
        mergeConfig h fs dir pref ovs
          = "# ⚠ Hydra compose failed (" ++ e
            ++ "); showing manual OmegaConf merge\n" ++ mergeManualStr fs dir pref ovs)
    ∧ (∀ mp cfg e, findMainConfigM fs dir pref = some mp →
        h.compose (stemOf mp) ovs = .ok cfg →
        h.toYamlResolved cfg = .error e →
        mergeConfig h fs dir pref ovs
          = "# ⚠ Warning: some interpolations could not be resolved\n#   (" ++ e ++ ")\n"
            ++ h.toYamlRaw cfg)
    ∧ (∀ mp e, findMainConfigM fs dir pref = some mp →
        mergeManualCore fs dir mp ovs = .error e →
        mergeManualStr fs dir pref ovs = "# Error merging config:\n# " ++ e) := by
  refine ⟨?_, ?_, ?_, ?_⟩
  · intro hn
    unfold mergeConfig
    rw [hn]
  · intro mp e hm hc
    unfold mergeConfig
    rw [hm]
    show mergeTry h fs dir pref ovs (stemOf mp) = _
    unfold mergeTry mergeWithHydra
    rw [hc]
  · intro mp cfg e hm hc hr
    unfold mergeConfig
    rw [hm]
    show mergeTry h fs dir pref ovs (stemOf mp) = _
    unfold mergeTry mergeWithHydra
    rw [hc]
    simp only [hr]
  · intro mp e hm hcore
    unfold mergeManualStr
    rw [hm]
    show mergeManualRender fs dir mp ovs = _
    unfold mergeManualRender
    rw [hcore]

/-- A primary strategy whose composition always fails. -/
def oracleC7fail : HydraOracle Unit :=
  ⟨fun _ _ => .error "boom", fun _ => .error "x", fun _ => "raw"⟩

/-- A primary strategy that composes but cannot resolve interpolations. -/
def oracleC7resolve : HydraOracle Unit :=
  ⟨fun _ _ => .ok (), fun _ => .error "interp", fun _ => "raw: ${oc.env:HOME}"⟩

/-- A store whose root document is discoverable. -/
def fsC7 : FS :=
  ⟨[("cfg/config.yaml", .yaml (.vmap [("defaults", .vlist [.vstr "_self_"]), ("y", .vint 1)]))],
   []⟩

/-- A store whose manual fallback fails internally (unparseable module). -/
def fsC7b : FS :=
  ⟨[("cfg/config.yaml", .yaml (.vmap [("defaults", .vlist [.vstr "bad"])])),
    ("cfg/bad.yaml", .raw ": : not yaml : :")], []⟩

/-- C7 witness: the theorem applied to concrete oracles and stores for each
of the three degradation modes. -/
theorem c7_witness :
    mergeConfig oracleC7fail fsC7 "cfg" none []
      = "# ⚠ Hydra compose failed (boom); showing manual OmegaConf merge\n"
        ++ mergeManualStr fsC7 "cfg" none []
    ∧ mergeConfig oracleC7resolve fsC7 "cfg" none []
      = "# ⚠ Warning: some interpolations could not be resolved\n#   (interp)\n"
        ++ "raw: ${oc.env:HOME}"
    ∧ mergeManualStr fsC7b "cfg" none []
      = "# Error merging config:\n# " ++ "failed to parse cfg/bad.yaml" :=
  ⟨(c7_merge_error_handling oracleC7fail fsC7 "cfg" none []).2.1 "cfg/config.yaml" "boom"
      (by decide) (by decide),
   (c7_merge_error_handling oracleC7resolve fsC7 "cfg" none []).2.2.1 "cfg/config.yaml" ()
      "interp" (by decide) (by decide) (by decide),
   (c7_merge_error_handling oracleC7fail fsC7b "cfg" none []).2.2.2 "cfg/config.yaml"
      "failed to parse cfg/bad.yaml" (by decide) (by decide)⟩

/-! ### Claim C8 -/

theorem lookupFileL_setFileL_same (l : List (String × FileData)) (p : String) (d : FileData) :
    lookupFileL (setFileL l p d) p = some d := by
  induction l with
  | nil => simp [setFileL, lookupFileL]
  | cons q rest ih =>
      obtain ⟨p2, d2⟩ := q
      by_cases h : p2 = p
      · simp [setFileL, lookupFileL, h]
      · simp [setFileL, lookupFileL, h, ih]

theorem lookupFileL_setFileL_ne (l : List (String × FileData)) (p q : String) (d : FileData)
    (h : p ≠ q) :
    lookupFileL (setFileL l p d) q = lookupFileL l q := by
  induction l with
  | nil => simp [setFileL, lookupFileL, h]
  | cons r rest ih =>
      obtain ⟨p2, d2⟩ := r
      by_cases h2 : p2 = p
      · have h3 : ¬(p2 = q) := by rw [h2]; exact h
        simp [setFileL, lookupFileL, h2, h3, h]
      · simp [setFileL, lookupFileL, h2, ih]

theorem lookupFile_setFile_same (fs : FS) (p : String) (d : FileData) :
    lookupFile (setFile fs p d) p = some d :=
  lookupFileL_setFileL_same fs.files p d

theorem lookupFile_setFile_ne (fs : FS) (p q : String) (d : FileData) (h : p ≠ q) :
    lookupFile (setFile fs p d) q = lookupFile fs q :=
  lookupFileL_setFileL_ne fs.files p q d h

theorem lookupFile_addDir (fs : FS) (p q : String) :
    lookupFile (addDir fs p) q = lookupFile fs q := by
  unfold addDir
  by_cases h : fs.dirs.contains p = true
  · rw [if_pos h]
  · rw [if_neg h]
    rfl

theorem lookupFile_addDirs (fs : FS) (ps : List String) (q : String) :
    lookupFile (addDirs fs ps) q = lookupFile fs q := by
  unfold addDirs
  induction ps generalizing fs with
  | nil => rfl
  | cons p rest ih =>
      rw [List.foldl_cons]
      rw [ih (addDir fs p)]
      exact lookupFile_addDir fs p q

theorem str_append_cancel_left (a b c : String) (h : a ++ b = a ++ c) : b = c := by
  have hd : (a ++ b).data = (a ++ c).data := by rw [h]
  rw [String.data_append, String.data_append] at hd
  have h2 := List.append_cancel_left hd
  cases b with
  | mk bd =>
      cases c with
      | mk cd =>
          have h3 : bd = cd := h2
          rw [h3]

theorem strStarts_self_append (p x : String) : strStarts p (p ++ x) = true := by
  unfold strStarts
  rw [String.data_append]
  induction p.data with
  | nil => rfl
  | cons c rest ih => simp [listStarts, ih]

theorem restoreLoop_lookup_other (dir sp : String) :
    ∀ (rels : List String) (fs : FS) (q : String),
      (∀ r ∈ rels, q ≠ dir ++ "/" ++ r) →
      lookupFile (restoreLoop dir sp fs rels) q = lookupFile fs q := by
  intro rels
  induction rels with
  | nil => intro fs q _; rfl
  | cons r rest ih =>
      intro fs q hq
      simp only [restoreLoop]
      cases hs : lookupFile fs (sp ++ "/" ++ r) with
      | some c =>
          rw [ih _ q (fun r2 h2 => hq r2 (List.mem_cons_of_mem _ h2))]
          rw [lookupFile_setFile_ne _ _ _ _
            (fun he => hq r (List.mem_cons_self _ _) he.symm)]
          exact lookupFile_addDirs fs _ q
      | none => exact ih _ q (fun r2 h2 => hq r2 (List.mem_cons_of_mem _ h2))

theorem restoreLoop_restores (dir sp : String) :
    ∀ (rels : List String) (fs : FS) (r : String),
      (∀ r2 ∈ rels, strStarts (sp ++ "/") (dir ++ "/" ++ r2) = false) →
      r ∈ rels →
      lookupFile (restoreLoop dir sp fs rels) (dir ++ "/" ++ r)
        = (match lookupFile fs (sp ++ "/" ++ r) with
           | some c => some c
           | none => lookupFile fs (dir ++ "/" ++ r)) := by
  intro rels
  induction rels with
  | nil => intro fs r _ hmem; cases hmem
  | cons r0 rest ih =>
      intro fs r hsafe hmem
      have hsafe2 : ∀ r2 ∈ rest, strStarts (sp ++ "/") (dir ++ "/" ++ r2) = false :=
        fun r2 h2 => hsafe r2 (List.mem_cons_of_mem _ h2)
      have hdns : ∀ (r1 r2 : String), r2 ∈ r0 :: rest → dir ++ "/" ++ r2 ≠ sp ++ "/" ++ r1 := by
        intro r1 r2 h2 he
        have h3 := hsafe r2 h2
        rw [he] at h3
        have h4 := strStarts_self_append (sp ++ "/") r1
        exact Bool.noConfusion (h4.symm.trans h3)
      have hinj : ∀ (r1 r2 : String), dir ++ "/" ++ r1 = dir ++ "/" ++ r2 → r1 = r2 := by
        intro r1 r2 he
        have h2 : (dir ++ "/") ++ r1 = (dir ++ "/") ++ r2 := he
        exact str_append_cancel_left (dir ++ "/") r1 r2 h2
      simp only [restoreLoop]
      cases hs : lookupFile fs (sp ++ "/" ++ r0) with
      | some c0 =>
          have hsrcne : ∀ r1, dir ++ "/" ++ r0 ≠ sp ++ "/" ++ r1 :=
            fun r1 => hdns r1 r0 (List.mem_cons_self _ _)
          by_cases hrr : r = r0
          · subst hrr
            by_cases hrin : r ∈ rest
            · rw [ih _ r hsafe2 hrin]
              rw [lookupFile_setFile_ne _ _ _ _ (hsrcne r), lookupFile_addDirs, hs]
            · rw [restoreLoop_lookup_other dir sp rest _ _ ?hother]
              · rw [lookupFile_setFile_same, hs]
              case hother =>
                intro r2 h2 he
                exact hrin (hinj r r2 he ▸ h2)
          · have hrin : r ∈ rest := by
              rcases List.mem_cons.mp hmem with h1 | h1
              · exact absurd h1 hrr
              · exact h1
            rw [ih _ r hsafe2 hrin]
            have hdne : dir ++ "/" ++ r0 ≠ dir ++ "/" ++ r :=
              fun he => hrr (hinj r0 r he).symm
            have hsne : dir ++ "/" ++ r0 ≠ sp ++ "/" ++ r :=
              hdns r r0 (List.mem_cons_self _ _)
            rw [lookupFile_setFile_ne _ _ _ _ hsne, lookupFile_addDirs]
            cases h5 : lookupFile fs (sp ++ "/" ++ r) with
            | some c => rfl
            | none =>
                rw [lookupFile_setFile_ne _ _ _ _ hdne, lookupFile_addDirs]
      | none =>
          by_cases hrr : r = r0
          · subst hrr
            by_cases hrin : r ∈ rest
            · rw [ih _ r hsafe2 hrin, hs]
            · rw [restoreLoop_lookup_other dir sp rest _ _ ?hother2]
              · rw [hs]
              case hother2 =>
                intro r2 h2 he
                exact hrin (hinj r r2 he ▸ h2)
          · have hrin : r ∈ rest := by
              rcases List.mem_cons.mp hmem with h1 | h1
              · exact absurd h1 hrr
              · exact h1
            exact ih _ r hsafe2 hrin

/-- The concrete store for the C8 witness: a live config tree, one snapshot
whose manifest lists a present file and a missing one. -/
def fsC8 : FS :=
  ⟨[("cfg/config.yaml", .yaml (.vmap [("k", .vint 7)])),
    ("cfg/.hydra_backups/S1/meta.json", .meta (some ["config.yaml", "gone.yaml"])),
    ("cfg/.hydra_backups/S1/config.yaml", .raw "old")],
   ["cfg", "cfg/.hydra_backups", "cfg/.hydra_backups/S1"]⟩

/-- The post-backup store: `fsC8` after the `pre_restore_backup` snapshot. -/
def fsC8post : FS :=
  ⟨[("cfg/config.yaml", .yaml (.vmap [("k", .vint 7)])),
    ("cfg/.hydra_backups/S1/meta.json", .meta (some ["config.yaml", "gone.yaml"])),
    ("cfg/.hydra_backups/S1/config.yaml", .raw "old"),
    ("cfg/.hydra_backups/T1_pre_restore_backup/config.yaml",
      .yaml (.vmap [("k", .vint 7)])),
    ("cfg/.hydra_backups/T1_pre_restore_backup/meta.json", .meta (some ["config.yaml"]))],
   ["cfg", "cfg/.hydra_backups", "cfg/.hydra_backups/S1",
    "cfg/.hydra_backups/T1_pre_restore_backup"]⟩

/-- A store where a snapshot directory for the same timestamp and tag already
exists, so the automatic `pre_restore_backup` raises although the target
manifest is readable. -/
def fsC8c : FS :=
  ⟨[("cfg/.hydra_backups/S1/meta.json", .meta (some []))],
   ["cfg", "cfg/.hydra_backups", "cfg/.hydra_backups/T1_pre_restore_backup"]⟩

theorem str_ext {s t : String} (h : s.data = t.data) : s = t := by
  cases s with
  | mk a =>
      cases t with
      | mk b =>
          have h2 : a = b := h
          rw [h2]

theorem listStarts_append_self (p q : List Char) : listStarts p (p ++ q) = true := by
  induction p with
  | nil => rfl
  | cons c rest ih => simp [listStarts, ih]

theorem listStarts_long (p : List Char) :
    ∀ (a b : List Char), listStarts p (a ++ b) = true → p.length ≤ a.length →
      listStarts p a = true := by
  induction p with
  | nil => intro a b _ _; rfl
  | cons c ps ih =>
      intro a b h hlen
      cases a with
      | nil => simp at hlen
      | cons x xs =>
          simp only [List.cons_append, listStarts, Bool.and_eq_true] at h ⊢
          refine ⟨h.1, ih xs b h.2 ?_⟩
          simp only [List.length_cons] at hlen
          omega

theorem listStarts_short (p : List Char) :
    ∀ (a b : List Char), listStarts p (a ++ b) = true → a.length ≤ p.length →
      listStarts a p = true := by
  intro a
  induction a generalizing p with
  | nil => intro b _ _; rfl
  | cons x xs ih =>
      intro b h hlen
      cases p with
      | nil => simp at hlen
      | cons c ps =>
          simp only [List.cons_append, listStarts, Bool.and_eq_true] at h ⊢
          constructor
          · have h1 : c = x := by
              have := h.1
              simp at this
              exact this
            simp [h1]
          · refine ih ps b h.2 ?_
            simp only [List.length_cons] at hlen
            omega

theorem mem_of_listStarts (a : List Char) :
    ∀ (p : List Char), listStarts a p = true → ∀ c ∈ a, c ∈ p := by
  induction a with
  | nil => intro p _ c hc; cases hc
  | cons x xs ih =>
      intro p h c hc
      cases p with
      | nil => exact Bool.noConfusion h
      | cons y ys =>
          simp only [listStarts, Bool.and_eq_true] at h
          rcases List.mem_cons.mp hc with h1 | h1
          · have h2 : x = y := by
              have := h.1
              simp at this
              exact this
            rw [h1, h2]
            exact List.mem_cons_self _ _
          · exact List.mem_cons_of_mem _ (ih ys h.2 c h1)

theorem takeWhile_dropWhile_append (P : Char → Bool) (i : List Char)
    (hall : ∀ c ∈ i, P c = true) (c0 : Char) (h0 : P c0 = false) (q : List Char) :
    (i ++ c0 :: q).takeWhile P = i ∧ (i ++ c0 :: q).dropWhile P = c0 :: q := by
  induction i with
  | nil =>
      constructor
      · simp [List.takeWhile_cons_of_neg, h0]
      · simp [List.dropWhile_cons_of_neg, h0]
  | cons x xs ih =>
      have hx : P x = true := hall x (List.mem_cons_self _ _)
      have ih2 := ih (fun c hc => hall c (List.mem_cons_of_mem _ hc))
      constructor
      · simp only [List.cons_append, List.takeWhile_cons_of_pos hx, ih2.1]
      · simp only [List.cons_append, List.dropWhile_cons_of_pos hx, ih2.2]

/-- If a list starting with `"override "` did so only because of its tail,
a distinguished character of the head part rules that out. -/
theorem listStarts_od_false (gn rest : List Char) (c0 : Char)
    (hg : c0 ∈ gn) (hc0 : ¬ c0 ∈ "override ".data)
    (hpref : listStarts "override ".data gn = false) :
    listStarts "override ".data (gn ++ rest) = false := by
  cases hcase : listStarts "override ".data (gn ++ rest) with
  | false => rfl
  | true =>
      exfalso
      by_cases hlen : "override ".data.length ≤ gn.length
      · have h2 := listStarts_long "override ".data gn rest hcase hlen
        rw [h2] at hpref
        exact Bool.noConfusion hpref
      · push_neg at hlen
        have h2 := listStarts_short "override ".data gn rest hcase (Nat.le_of_lt hlen)
        exact hc0 (mem_of_listStarts gn "override ".data h2 c0 hg)

/-- A fully decomposed string-form line matches, capturing indent, override
prefix and trailing whitespace. -/
theorem matchStrForm_decomp (oldG oldN i ov rest : String)
    (hi : ∀ c ∈ i.data, spaceTab c = true)
    (hov : ov = "" ∨ ov = "override ")
    (hrest : ∀ c ∈ rest.data, wsChar c = true)
    (hpref : listStarts "override ".data (oldG ++ "/" ++ oldN).data = false) :
    matchStrForm oldG oldN (i ++ "- " ++ ov ++ (oldG ++ "/" ++ oldN) ++ rest)
      = some (i, ov, rest) := by
  have hdata : ∀ gs : String, (i ++ "- " ++ ov ++ gs ++ rest).data
      = i.data ++ '-' :: ' ' :: (ov.data ++ (gs.data ++ rest.data)) := by
    intro gs
    simp only [String.data_append, List.append_assoc]
    rfl
  have hslash : '/' ∈ (oldG ++ "/" ++ oldN).data := by
    simp only [String.data_append]
    refine List.mem_append.mpr (Or.inl (List.mem_append.mpr (Or.inr ?_)))
    exact List.mem_singleton.mpr rfl
  have hall : rest.data.all wsChar = true := List.all_eq_true.mpr hrest
  simp only [matchStrForm]
  rw [hdata (oldG ++ "/" ++ oldN)]
  obtain ⟨ht, hd⟩ := takeWhile_dropWhile_append spaceTab i.data hi '-' rfl
    (' ' :: (ov.data ++ ((oldG ++ "/" ++ oldN).data ++ rest.data)))
  rw [ht, hd]
  have hbs : listStarts "- ".data
      ('-' :: ' ' :: (ov.data ++ ((oldG ++ "/" ++ oldN).data ++ rest.data))) = true := by
    show listStarts ['-', ' '] _ = true
    simp [listStarts]
  rw [if_pos hbs]
  have hdrop2 : ('-' :: ' ' :: (ov.data ++ ((oldG ++ "/" ++ oldN).data ++ rest.data))).drop 2
      = ov.data ++ ((oldG ++ "/" ++ oldN).data ++ rest.data) := rfl
  rw [hdrop2]
  rcases hov with h | h
  · subst h
    simp only [show ("" : String).data = [] from rfl, List.nil_append]
    have hfirst : listStarts "override ".data
        ((oldG ++ "/" ++ oldN).data ++ rest.data) = false :=
      listStarts_od_false _ _ '/' hslash (by decide) hpref
    rw [hfirst]
    simp only [Bool.false_and]
    rw [if_neg Bool.false_ne_true]
    have hcond : (listStarts (oldG ++ "/" ++ oldN).data
        ((oldG ++ "/" ++ oldN).data ++ rest.data)
        && (((oldG ++ "/" ++ oldN).data ++ rest.data).drop
              (oldG ++ "/" ++ oldN).data.length).all wsChar) = true := by
      rw [listStarts_append_self, List.drop_left, hall]
      rfl
    rw [if_pos hcond, List.drop_left]
  · subst h
    have hdrop9 : ("override ".data ++ ((oldG ++ "/" ++ oldN).data ++ rest.data)).drop 9
        = (oldG ++ "/" ++ oldN).data ++ rest.data :=
      List.drop_left "override ".data _
    have hcond : (listStarts "override ".data
          ("override ".data ++ ((oldG ++ "/" ++ oldN).data ++ rest.data))
        && listStarts (oldG ++ "/" ++ oldN).data
            ((("override ".data ++ ((oldG ++ "/" ++ oldN).data ++ rest.data)).drop 9))
        && (((("override ".data ++ ((oldG ++ "/" ++ oldN).data ++ rest.data)).drop 9).drop
              (oldG ++ "/" ++ oldN).data.length)).all wsChar) = true := by
      rw [hdrop9, listStarts_append_self, listStarts_append_self, List.drop_left, hall]
      rfl
    rw [if_pos hcond, hdrop9, List.drop_left]

/-- The mapping-form tail matcher succeeds on a decomposed `group: name` tail. -/
theorem dictTail_decomp (oldG oldN : String) (rest : List Char)
    (hall : rest.all wsChar = true)
    (hne : oldN.data ≠ []) (hh : wsChar (oldN.data.headD ' ') = false) :
    dictTail oldG oldN ((oldG ++ ": " ++ oldN).data ++ rest) = some rest := by
  have hdata : (oldG ++ ": " ++ oldN).data ++ rest
      = oldG.data ++ (':' :: ' ' :: (oldN.data ++ rest)) := by
    simp only [String.data_append, List.append_assoc]
    rfl
  rw [hdata]
  simp only [dictTail]
  rw [if_pos (listStarts_append_self oldG.data _)]
  rw [List.drop_left]
  rw [List.dropWhile_cons_of_neg (by decide : ¬ wsChar ':' = true)]
  have hv : (' ' :: (oldN.data ++ rest)).dropWhile wsChar = oldN.data ++ rest := by
    rw [List.dropWhile_cons_of_pos (by decide : wsChar ' ' = true)]
    cases hN : oldN.data with
    | nil => exact absurd hN hne
    | cons c1 tl =>
        rw [hN] at hh
        simp only [List.headD_cons] at hh
        rw [List.cons_append]
        exact List.dropWhile_cons_of_neg (by rw [hh]; exact Bool.false_ne_true)
  show (if (listStarts oldN.data ((' ' :: (oldN.data ++ rest)).dropWhile wsChar)
        && (((' ' :: (oldN.data ++ rest)).dropWhile wsChar).drop oldN.data.length).all wsChar)
          = true then
      some (((' ' :: (oldN.data ++ rest)).dropWhile wsChar).drop oldN.data.length)
    else none) = some rest
  rw [hv]
  have hcond : (listStarts oldN.data (oldN.data ++ rest)
      && ((oldN.data ++ rest).drop oldN.data.length).all wsChar) = true := by
    rw [listStarts_append_self, List.drop_left, hall]
    rfl
  rw [if_pos hcond, List.drop_left]

/-- A fully decomposed mapping-form line matches, capturing indent, override
prefix and trailing whitespace. -/
theorem matchDictForm_decomp (oldG oldN i ov rest : String)
    (hi : ∀ c ∈ i.data, spaceTab c = true)
    (hov : ov = "" ∨ ov = "override ")
    (hrest : ∀ c ∈ rest.data, wsChar c = true)
    (hpref : listStarts "override ".data (oldG ++ ": " ++ oldN).data = false)
    (hne : oldN.data ≠ []) (hh : wsChar (oldN.data.headD ' ') = false) :
    matchDictForm oldG oldN (i ++ "- " ++ ov ++ (oldG ++ ": " ++ oldN) ++ rest)
      = some (i, ov, rest) := by
  have hdata : ∀ gs : String, (i ++ "- " ++ ov ++ gs ++ rest).data
      = i.data ++ '-' :: ' ' :: (ov.data ++ (gs.data ++ rest.data)) := by
    intro gs
    simp only [String.data_append, List.append_assoc]
    rfl
  have hcolon : ':' ∈ (oldG ++ ": " ++ oldN).data := by
    simp only [String.data_append]
    refine List.mem_append.mpr (Or.inl (List.mem_append.mpr (Or.inr ?_)))
    exact List.mem_cons_self _ _
  have hall : rest.data.all wsChar = true := List.all_eq_true.mpr hrest
  have hdt := dictTail_decomp oldG oldN rest.data hall hne hh
  simp only [matchDictForm]
  rw [hdata (oldG ++ ": " ++ oldN)]
  obtain ⟨ht, hd⟩ := takeWhile_dropWhile_append spaceTab i.data hi '-' rfl
    (' ' :: (ov.data ++ ((oldG ++ ": " ++ oldN).data ++ rest.data)))
  rw [ht, hd]
  have hbs : listStarts "- ".data
      ('-' :: ' ' :: (ov.data ++ ((oldG ++ ": " ++ oldN).data ++ rest.data))) = true := by
    show listStarts ['-', ' '] _ = true
    simp [listStarts]
  rw [if_pos hbs]
  have hdrop2 : ('-' :: ' ' :: (ov.data ++ ((oldG ++ ": " ++ oldN).data ++ rest.data))).drop 2
      = ov.data ++ ((oldG ++ ": " ++ oldN).data ++ rest.data) := rfl
  rw [hdrop2]
  rcases hov with h | h
  · subst h
    simp only [show ("" : String).data = [] from rfl, List.nil_append]
    have hfirst : listStarts "override ".data
        ((oldG ++ ": " ++ oldN).data ++ rest.data) = false :=
      listStarts_od_false _ _ ':' hcolon (by decide) hpref
    rw [if_neg (by rw [hfirst]; exact Bool.false_ne_true), hdt]
  · subst h
    have hdrop9 : ("override ".data ++ ((oldG ++ ": " ++ oldN).data ++ rest.data)).drop 9
        = (oldG ++ ": " ++ oldN).data ++ rest.data :=
      List.drop_left "override ".data _
    rw [if_pos (by rw [listStarts_append_self] :
        listStarts "override ".data
          ("override ".data ++ ((oldG ++ ": " ++ oldN).data ++ rest.data)) = true)]
    rw [hdrop9, hdt]

/-- C9: `update_defaults_item` raises the entry-not-found error iff no line of
the document matches either the string-form or the mapping-form pattern; when
the string-form pattern matches somewhere, every line is rewritten by the
string-form substitution (globally), and otherwise, when the mapping-form
pattern matches somewhere, every line is rewritten by the mapping-form
substitution; lines not matching the applied pattern are left unaltered; and a
matching line is rewritten to the new group/name with its leading whitespace,
optional `override ` prefix and trailing whitespace preserved. -/
theorem c9_update_defaults_item_semantics
    (lines : List String) (oldG oldN newG newN : String) :
    (updateDefaultsItem lines oldG oldN newG newN
        = .error ("Could not find defaults entry for " ++ oldG ++ "/" ++ oldN)
      ↔ ∀ l ∈ lines, (matchStrForm oldG oldN l).isSome = false
          ∧ (matchDictForm oldG oldN l).isSome = false)
    ∧ ((∃ l ∈ lines, (matchStrForm oldG oldN l).isSome = true) →
        updateDefaultsItem lines oldG oldN newG newN
          = .ok (lines.map (rewriteStr1 oldG oldN newG newN)))
    ∧ ((∀ l ∈ lines, (matchStrForm oldG oldN l).isSome = false) →
        (∃ l ∈ lines, (matchDictForm oldG oldN l).isSome = true) →
        updateDefaultsItem lines oldG oldN newG newN
          = .ok (lines.map (rewriteDict oldG oldN newG newN)))
    ∧ (∀ l, (matchStrForm oldG oldN l).isSome = false →
        rewriteStr1 oldG oldN newG newN l = l)
    ∧ (∀ l, (matchDictForm oldG oldN l).isSome = false →
        rewriteDict oldG oldN newG newN l = l)
    ∧ (∀ i ov rest : String,
        (∀ c ∈ i.data, spaceTab c = true) →
        (ov = "" ∨ ov = "override ") →
        (∀ c ∈ rest.data, wsChar c = true) →
        listStarts "override ".data (oldG ++ "/" ++ oldN).data = false →
        rewriteStr1 oldG oldN newG newN (i ++ "- " ++ ov ++ (oldG ++ "/" ++ oldN) ++ rest)
          = i ++ "- " ++ ov ++ (newG ++ "/" ++ newN) ++ rest)
    ∧ (∀ i ov rest : String,
        (∀ c ∈ i.data, spaceTab c = true) →
        (ov = "" ∨ ov = "override ") →
        (∀ c ∈ rest.data, wsChar c = true) →
        listStarts "override ".data (oldG ++ ": " ++ oldN).data = false →
        oldN.data ≠ [] → wsChar (oldN.data.headD ' ') = false →
        rewriteDict oldG oldN newG newN (i ++ "- " ++ ov ++ (oldG ++ ": " ++ oldN) ++ rest)
          = i ++ "- " ++ ov ++ (newG ++ ": " ++ newN) ++ rest) := by
  refine ⟨?_, ?_, ?_, ?_, ?_, ?_, ?_⟩
  · constructor
    · intro herr
      simp only [updateDefaultsItem] at herr
      by_cases h1 : lines.countP (fun l => (matchStrForm oldG oldN l).isSome) = 0
      · rw [if_neg (not_not.mpr h1)] at herr
        by_cases h2 : lines.countP (fun l => (matchDictForm oldG oldN l).isSome) = 0
        · intro l hl
          exact ⟨Bool.eq_false_iff.mpr (List.countP_eq_zero.mp h1 l hl),
            Bool.eq_false_iff.mpr (List.countP_eq_zero.mp h2 l hl)⟩
        · rw [if_pos h2] at herr
          exact absurd herr (by simp)
      · rw [if_pos h1] at herr
        exact absurd herr (by simp)
    · intro hno
      have h1 : lines.countP (fun l => (matchStrForm oldG oldN l).isSome) = 0 :=
        List.countP_eq_zero.mpr (fun l hl => by
          simp only [(hno l hl).1]
          exact Bool.false_ne_true)
      have h2 : lines.countP (fun l => (matchDictForm oldG oldN l).isSome) = 0 :=
        List.countP_eq_zero.mpr (fun l hl => by
          simp only [(hno l hl).2]
          exact Bool.false_ne_true)
      simp only [updateDefaultsItem]
      rw [if_neg (not_not.mpr h1), if_neg (not_not.mpr h2)]
  · intro hex
    have hn1 : lines.countP (fun l => (matchStrForm oldG oldN l).isSome) ≠ 0 := by
      intro h0
      obtain ⟨l, hl, hm⟩ := hex
      exact (List.countP_eq_zero.mp h0 l hl) hm
    simp only [updateDefaultsItem]
    rw [if_pos hn1]
  · intro hstr hex
    have h1 : lines.countP (fun l => (matchStrForm oldG oldN l).isSome) = 0 :=
      List.countP_eq_zero.mpr (fun l hl => by
        simp only [hstr l hl]
        exact Bool.false_ne_true)
    have hn2 : lines.countP (fun l => (matchDictForm oldG oldN l).isSome) ≠ 0 := by
      intro h0
      obtain ⟨l, hl, hm⟩ := hex
      exact (List.countP_eq_zero.mp h0 l hl) hm
    simp only [updateDefaultsItem]
    rw [if_neg (not_not.mpr h1), if_pos hn2]
  · intro l hnone
    simp only [rewriteStr1]
    cases hm : matchStrForm oldG oldN l with
    | none => rfl
    | some p =>
        rw [hm] at hnone
        exact absurd hnone (by simp)
  · intro l hnone
    simp only [rewriteDict]
    cases hm : matchDictForm oldG oldN l with
    | none => rfl
    | some p =>
        rw [hm] at hnone
        exact absurd hnone (by simp)
  · intro i ov rest hi hov hrest hpref
    simp only [rewriteStr1]
    rw [matchStrForm_decomp oldG oldN i ov rest hi hov hrest hpref]
    apply str_ext
    simp only [String.data_append, List.append_assoc]
  · intro i ov rest hi hov hrest hpref hne hh
    simp only [rewriteDict]
    rw [matchDictForm_decomp oldG oldN i ov rest hi hov hrest hpref hne hh]
    apply str_ext
    simp only [String.data_append, List.append_assoc]

/-- C9 counterexample: when a line matches the string-form pattern, lines
matching only the mapping-form pattern are NOT rewritten, contradicting the
original claim that every line matching either pattern is rewritten. -/
theorem c9_original_claim_false :
    updateDefaultsItem ["  - a/b", "  - a: b"] "a" "b" "c" "d"
      = .ok ["  - c/d", "  - a: b"]
    ∧ "  - a: b" ∈ (["  - a/b", "  - a: b"] : List String)
    ∧ (matchDictForm "a" "b" "  - a: b").isSome = true := by decide

theorem c9_witness :
    updateDefaultsItem ["defaults:", "  - db/mysql"] "db" "mysql" "db" "postgres"
      = .ok ["defaults:", "  - db/postgres"]
    ∧ rewriteStr1 "db" "mysql" "db" "postgres"
        ("  " ++ "- " ++ "" ++ ("db" ++ "/" ++ "mysql") ++ " ")
      = "  " ++ "- " ++ "" ++ ("db" ++ "/" ++ "postgres") ++ " "
    ∧ rewriteDict "db" "mysql" "db" "postgres"
        ("  " ++ "- " ++ "override " ++ ("db" ++ ": " ++ "mysql") ++ "")
      = "  " ++ "- " ++ "override " ++ ("db" ++ ": " ++ "postgres") ++ "" := by
  refine ⟨?_, ?_, ?_⟩
  · have h := (c9_update_defaults_item_semantics ["defaults:", "  - db/mysql"]
      "db" "mysql" "db" "postgres").2.1
    rw [h ⟨"  - db/mysql", by decide, by decide⟩]
    decide
  · exact (c9_update_defaults_item_semantics ["defaults:", "  - db/mysql"]
      "db" "mysql" "db" "postgres").2.2.2.2.2.1 "  " "" " "
      (by decide) (Or.inl rfl) (by decide) (by decide)
  · exact (c9_update_defaults_item_semantics ["defaults:", "  - db/mysql"]
      "db" "mysql" "db" "postgres").2.2.2.2.2.2 "  " "override " ""
      (by decide) (Or.inr rfl) (by decide) (by decide) (by decide) (by decide)
